import Mathlib

/-!
Verification of the template diff and replacement propagation engine of
packages/@aws-cdk/cloudformation-diff/lib/diff-template.ts.

The JSON document model and the functions of diff-template.ts (diffTemplate,
calculateTemplateDiff, the DIFF_HANDLERS dispatch, propagateReplacedReferences,
propagatePropertyReplacement, isReplacement, deepCopy, findResourceReplacements)
are translated directly from that source file.  The collaborators that live in
diff/util.ts, diff/types.ts and the resource differ (deepEqual,
diffKeyedEntities, unionOf, diffResource, DifferenceCollection, TemplateDiff,
ResourceImpact) are not part of the sources at hand; each such definition is
modelled from the specification (sections 3 and 4.1 to 4.4 of the design
document) and carries a doc comment saying so.
-/

namespace CdkDiff

/-- A JSON-compatible document value: scalars, ordered sequences and
string-keyed mappings whose entries are kept in insertion order, the way a
JS object keeps its keys. -/
inductive JSON where
  | null : JSON
  | bool : Bool → JSON
  | num : Int → JSON
  | str : String → JSON
  | arr : List JSON → JSON
  | obj : List (String × JSON) → JSON

mutual
/-- Structural (order-sensitive) boolean equality of documents. -/
def jeq : JSON → JSON → Bool
  | .null, .null => true
  | .bool a, .bool b => a == b
  | .num a, .num b => a == b
  | .str a, .str b => a == b
  | .arr xs, .arr ys => jeqList xs ys
  | .obj kvs, .obj lws => jeqKVs kvs lws
  | _, _ => false

def jeqList : List JSON → List JSON → Bool
  | [], [] => true
  | x :: xs, y :: ys => jeq x y && jeqList xs ys
  | _, _ => false

def jeqKVs : List (String × JSON) → List (String × JSON) → Bool
  | [], [] => true
  | (k, v) :: kvs, (l, w) :: lws => k == l && jeq v w && jeqKVs kvs lws
  | _, _ => false
end

/-- Lexicographic order on strings through their character lists; the
built-in order on String is identical but does not evaluate inside the
kernel, so the development uses this one. -/
def strLe (a b : String) : Prop := a.data ≤ b.data

instance : DecidableRel strLe :=
  fun a b => inferInstanceAs (Decidable (a.data ≤ b.data))

instance : IsTrans String strLe :=
  ⟨fun _ _ _ h h2 => le_trans h h2⟩

instance : IsTotal String strLe :=
  ⟨fun a b => le_total a.data b.data⟩

instance : IsAntisymm String strLe :=
  ⟨fun _ _ h h2 => String.ext (le_antisymm h h2)⟩

/-- Order on keyed entries, comparing keys only. -/
def kvLe (p q : String × JSON) : Prop := strLe p.1 q.1

instance : DecidableRel kvLe := fun p q => inferInstanceAs (Decidable (strLe p.1 q.1))

/-- Sort a list of string keys lexicographically.  Models the JS default
sort used on key arrays by diff-template.ts. -/
def sortStrings (l : List String) : List String := l.insertionSort strLe

/-- Modelled from the spec (4.2 and the unionOf collaborator of util.ts):
union of two key lists with duplicates removed, sorted deterministically. -/
def sortedUnion (a b : List String) : List String := sortStrings ((a ++ b).dedup)

mutual
/-- Canonical form of a document: mapping entries sorted by key at every
level.  Two documents are equal in the sense of the Value Comparator of
spec 4.1 exactly when their canonical forms coincide structurally. -/
def canon : JSON → JSON
  | .null => .null
  | .bool b => .bool b
  | .num n => .num n
  | .str s => .str s
  | .arr xs => .arr (canonList xs)
  | .obj kvs => .obj ((canonKVs kvs).insertionSort kvLe)

def canonList : List JSON → List JSON
  | [] => []
  | x :: xs => canon x :: canonList xs

def canonKVs : List (String × JSON) → List (String × JSON)
  | [] => []
  | (k, v) :: kvs => (k, canon v) :: canonKVs kvs
end

/-- Modelled from the spec (4.1, the deepEqual collaborator of util.ts):
deep structural equality, insensitive to the order of mapping keys and
sensitive to the order of sequence elements. -/
def deepEqual (a b : JSON) : Bool := jeq (canon a) (canon b)

/-- The Value Comparator extended with the canonical absent sentinel of
spec 4.1: an absent value is equal only to an absent value. -/
def deepEqualOpt : Option JSON → Option JSON → Bool
  | none, none => true
  | some a, some b => deepEqual a b
  | _, _ => false

/-- Lookup in an association list, first match wins, as property access on
a JS object. -/
def alget : List (String × α) → String → Option α
  | [], _ => none
  | (k, v) :: kvs, key => if k = key then some v else alget kvs key

/-- JS object assignment: an existing key keeps its position and gets the
new value, a new key is appended. -/
def upsert (l : List (String × α)) (k : String) (v : α) : List (String × α) :=
  if (alget l k).isSome then l.map (fun p => if p.1 = k then (k, v) else p)
  else l ++ [(k, v)]

/-- Keys of an association list. -/
def keysOf (l : List (String × α)) : List String := l.map Prod.fst

/-- The enumerable entries a JS Object.keys/values traversal sees on a
value: the entries of an object, index-keyed elements of an array, and
nothing on scalars or an absent value. -/
def objEntriesOpt : Option JSON → List (String × JSON)
  | some (.obj kvs) => kvs
  | some (.arr xs) => (xs.enum.map (fun p => (toString p.1, p.2)))
  | _ => []

/-- Field access on an object document. -/
def objLookup (key : String) : JSON → Option JSON
  | .obj kvs => alget kvs key
  | _ => none

/-- String payload of a document, when it is a string. -/
def getStr : JSON → Option String
  | .str s => some s
  | _ => none

/-- Whether the first string starts with the second; same behavior as the
built-in String.startsWith, carried out on the character lists so that the
kernel can evaluate it. -/
def startsWithB (s p : String) : Bool := p.data.isPrefixOf s.data

/-- Modelled from the spec (4.4 and 3): the change impact classification of
a resource difference. -/
inductive ResourceImpact where
  | NO_CHANGE : ResourceImpact
  | WILL_UPDATE : ResourceImpact
  | MAY_REPLACE : ResourceImpact
  | WILL_REPLACE : ResourceImpact
  | ADDED : ResourceImpact
  | REMOVED : ResourceImpact
deriving Repr, DecidableEq

/-- Severity of an impact, spec 4.4 step 4: NO_CHANGE < WILL_UPDATE <
MAY_REPLACE < WILL_REPLACE, with ADDED and REMOVED terminal states that
never take part in the maximum. -/
def impactSeverity : ResourceImpact → Nat
  | .NO_CHANGE => 0
  | .WILL_UPDATE => 1
  | .MAY_REPLACE => 2
  | .WILL_REPLACE => 3
  | .ADDED => 4
  | .REMOVED => 5

def impactMax (a b : ResourceImpact) : ResourceImpact :=
  if impactSeverity a ≤ impactSeverity b then b else a

def maxImpacts (l : List ResourceImpact) : ResourceImpact :=
  l.foldl impactMax .NO_CHANGE

/-- Translated from diff-template.ts line 88: an impact counts as a
replacement when it is MAY_REPLACE or WILL_REPLACE. -/
def isReplacementB (i : ResourceImpact) : Bool :=
  i == .MAY_REPLACE || i == .WILL_REPLACE

/-- Modelled from the spec (3): a plain difference between two optional
values; absence of the old value is an addition, absence of the new value
a removal. -/
structure Difference where
  oldValue : Option JSON
  newValue : Option JSON

/-- Modelled from the spec (3): a property difference together with its
replacement impact. -/
structure PropertyDifference where
  oldValue : Option JSON
  newValue : Option JSON
  changeImpact : ResourceImpact

/-- Modelled from the spec (3 and 4.4): a resource difference.  The
resource level impact is derived from these fields by
ResourceDifference.changeImpact below, so overwriting a property diff
through setPropertyChange updates the derived impact as well. -/
structure ResourceDifference where
  oldValue : Option JSON
  newValue : Option JSON
  propertyDiffs : List (String × PropertyDifference)
  otherChanged : Bool
  typeChanged : Bool

/-- Modelled from the spec (4.4 steps 1 to 4): derived resource level
impact: only old present means REMOVED, only new present ADDED, a type
change forces WILL_REPLACE, otherwise the maximum severity impact over the
property impacts and the non-property attribute changes, which contribute
at most WILL_UPDATE. -/
def ResourceDifference.changeImpact (d : ResourceDifference) : ResourceImpact :=
  match d.oldValue, d.newValue with
  | none, none => .NO_CHANGE
  | some _, none => .REMOVED
  | none, some _ => .ADDED
  | some _, some _ =>
    if d.typeChanged then .WILL_REPLACE
    else maxImpacts ((d.propertyDiffs.map (fun p => p.2.changeImpact)) ++
      (if d.otherChanged then [.WILL_UPDATE] else []))

/-- Modelled from the spec (4.4 step 5): overwrite the recorded difference
of one property without recomputing the rest. -/
def ResourceDifference.setPropertyChange (d : ResourceDifference) (name : String)
    (pd : PropertyDifference) : ResourceDifference :=
  { d with propertyDiffs := upsert d.propertyDiffs name pd }

/-- The empty resource difference a collection lookup synthesizes for an
absent key (spec 3: lookup is never null, absent keys give an unchanged
difference). -/
def emptyResourceDifference : ResourceDifference := ⟨none, none, [], false, false⟩

/-- Per resource oracle data: whether the whole resource is replaced and
the per property recreation verdicts (ResourceReplacements of the spec). -/
structure ResourceReplacement where
  resourceReplaced : Bool
  propertiesReplaced : List (String × Option String)

def Replacements := List (String × ResourceReplacement)

/-- The static replacement table for resource properties, an external
collaborator of the engine (spec 4.4 step 3b): resource type and property
name give one of Always, Never, Conditionally, or no information. -/
def Statics := String → String → Option String

/-- Modelled from the spec (4.4 step 3): classify the impact of one changed
property.  The oracle entry wins when present: Always gives WILL_REPLACE,
Conditionally MAY_REPLACE, Never WILL_UPDATE; otherwise the static table is
consulted the same way, and with no information the default is
WILL_UPDATE. -/
def classifyProperty (st : Statics) (repl : Option Replacements) (logicalId : String)
    (resType : Option String) (prop : String) : ResourceImpact :=
  match (repl.bind (fun r => alget r logicalId)).bind
      (fun rr => alget rr.propertiesReplaced prop) with
  | some (some "Always") => .WILL_REPLACE
  | some (some "Conditionally") => .MAY_REPLACE
  | some (some "Never") => .WILL_UPDATE
  | _ =>
    match resType.bind (fun t => st t prop) with
    | some "Always" => .WILL_REPLACE
    | some "Conditionally" => .MAY_REPLACE
    | _ => .WILL_UPDATE

/-- The attribute keys of a resource body outside Type and Properties; when
keepMetadata is false the Metadata attribute is discarded as well (spec 4.5
step 1). -/
def restAttrKeys (keepMetadata : Bool) (j : JSON) : List String :=
  (keysOf (objEntriesOpt (some j))).filter (fun k =>
    decide (k ≠ "Type") && decide (k ≠ "Properties") &&
      (keepMetadata || decide (k ≠ "Metadata")))

/-- Modelled from the spec (4.4, the diffResource collaborator): diff one
resource.  Only old present gives REMOVED, only new ADDED; with both
present the Type attributes are compared, each changed property of the
Properties maps is classified through classifyProperty, and the remaining
attributes are compared as opaque values. -/
def diffResource (st : Statics) (repl : Option Replacements) (keepMetadata : Bool)
    (logicalId : String) (oldV newV : Option JSON) : ResourceDifference :=
  match oldV, newV with
  | none, none => ⟨none, none, [], false, false⟩
  | some o, none => ⟨some o, none, [], false, false⟩
  | none, some n => ⟨none, some n, [], false, false⟩
  | some o, some n =>
    let tChanged := !deepEqualOpt (objLookup "Type" o) (objLookup "Type" n)
    let resType := ((objLookup "Type" n).bind getStr) <|> ((objLookup "Type" o).bind getStr)
    let oProps := objEntriesOpt (objLookup "Properties" o)
    let nProps := objEntriesOpt (objLookup "Properties" n)
    let props := (sortedUnion (keysOf oProps) (keysOf nProps)).filterMap (fun p =>
      let ov := alget oProps p
      let nv := alget nProps p
      if deepEqualOpt ov nv then none
      else some (p, PropertyDifference.mk ov nv (classifyProperty st repl logicalId resType p)))
    let restChanged := (sortedUnion (restAttrKeys keepMetadata o) (restAttrKeys keepMetadata n)).any
      (fun k => !deepEqualOpt (objLookup k o) (objLookup k n))
    ⟨some o, some n, props, restChanged, tChanged⟩

/-- Modelled from the spec (4.2, the diffKeyedEntities collaborator of
util.ts): for the union of the keys of both maps, sorted deterministically,
omit entries that are equal under the Value Comparator and store the result
of the element differ for the rest. -/
def diffKeyedEntities (ed : String → Option JSON → Option JSON → α)
    (oldV newV : Option JSON) : List (String × α) :=
  let oldEs := objEntriesOpt oldV
  let newEs := objEntriesOpt newV
  (sortedUnion (keysOf oldEs) (keysOf newEs)).filterMap (fun k =>
    let o := alget oldEs k
    let n := alget newEs k
    if deepEqualOpt o n then none else some (k, ed k o n))

/-- Modelled from the spec (4.3): attribute sections are diffed as plain
value differences. -/
def diffAttribute (o n : Option JSON) : Difference := ⟨o, n⟩

/-- Modelled from the spec (4.3): metadata, parameter, mapping, condition
and output entities are diffed as opaque values. -/
def diffValueEntity (_k : String) (o n : Option JSON) : Difference := ⟨o, n⟩

/-- Modelled from the spec (3, the TemplateDiff aggregate of types.ts): one
collection per section, plus the attribute differences and the bucket of
unknown top level keys.  Collection sections default to the empty
collection, attribute sections to no difference. -/
structure TemplateDiff where
  awsTemplateFormatVersion : Option Difference
  description : Option Difference
  transform : Option Difference
  metadata : List (String × Difference)
  parameters : List (String × Difference)
  mappings : List (String × Difference)
  conditions : List (String × Difference)
  outputs : List (String × Difference)
  resources : List (String × ResourceDifference)
  unknown : List (String × Difference)

def emptyTemplateDiff : TemplateDiff := ⟨none, none, none, [], [], [], [], [], [], []⟩

/-- Translated from diff-template.ts lines 13 to 32: the DIFF_HANDLERS
registry, dispatching one handler per well-known top level key and putting
every other key in the unknown bucket. -/
def applyDiffHandler (st : Statics) (repl : Option Replacements) (km : Bool)
    (acc : TemplateDiff) (key : String) (o n : Option JSON) : TemplateDiff :=
  match key with
  | "AWSTemplateFormatVersion" => { acc with awsTemplateFormatVersion := some (diffAttribute o n) }
  | "Description" => { acc with description := some (diffAttribute o n) }
  | "Metadata" => { acc with metadata := diffKeyedEntities diffValueEntity o n }
  | "Parameters" => { acc with parameters := diffKeyedEntities diffValueEntity o n }
  | "Mappings" => { acc with mappings := diffKeyedEntities diffValueEntity o n }
  | "Conditions" => { acc with conditions := diffKeyedEntities diffValueEntity o n }
  | "Transform" => { acc with transform := some (diffAttribute o n) }
  | "Resources" => { acc with resources := diffKeyedEntities (diffResource st repl km) o n }
  | "Outputs" => { acc with outputs := diffKeyedEntities diffValueEntity o n }
  | _ => { acc with unknown := acc.unknown ++ [(key, diffAttribute o n)] }

/-- The sorted, deduplicated top level key sequence calculateTemplateDiff
iterates (diff-template.ts line 112). -/
def processedKeys (c n : JSON) : List String :=
  sortedUnion (keysOf (objEntriesOpt (some c))) (keysOf (objEntriesOpt (some n)))

/-- Translated from diff-template.ts lines 104 to 127: walk the sorted
union of the top level keys of both templates, skip keys whose values are
deeply equal, and dispatch the rest to the section handlers. -/
def calculateTemplateDiff (st : Statics) (c n : JSON) (repl : Option Replacements)
    (km : Bool) : TemplateDiff :=
  let ce := objEntriesOpt (some c)
  let ne := objEntriesOpt (some n)
  (processedKeys c n).foldl (fun acc key =>
    let o := alget ce key
    let nn := alget ne key
    if deepEqualOpt o nn then acc else applyDiffHandler st repl km acc key o nn)
    emptyTemplateDiff

mutual
/-- Translated from diff-template.ts lines 184 to 198: structural copy of a
document; arrays are mapped, objects rebuilt key by key, scalars returned
as they are. -/
def deepCopy : JSON → JSON
  | .null => .null
  | .bool b => .bool b
  | .num n => .num n
  | .str s => .str s
  | .arr xs => .arr (deepCopyList xs)
  | .obj kvs => .obj (deepCopyKVs kvs)

def deepCopyList : List JSON → List JSON
  | [] => []
  | x :: xs => deepCopy x :: deepCopyList xs

def deepCopyKVs : List (String × JSON) → List (String × JSON)
  | [] => []
  | (k, v) :: kvs => (k, deepCopy v) :: deepCopyKVs kvs
end

mutual
/-- Translated from diff-template.ts lines 141 to 182, the recurse and
replaceReference helpers of propagateReplacedReferences: rewrite every
reference to the given logical id and report whether anything changed.  An
object with exactly one key Ref whose value is the logical id gets the
marker with a space appended; an object with exactly one key starting in
Fn:: whose value is a non-empty array headed by the logical id gets the
marker without a space in the head slot; a recognized single-key Ref or
Fn:: object is never recursed into; every other object and every array is
recursed.  The JS recurse visits array elements a second time through the
Object.values branch, which typeof classifies arrays into as well; that
second visit rewrites nothing (theorem propRec_idem below), so this
translation performs the traversal once. -/
def propRec (l : String) : JSON → JSON × Bool
  | .null => (.null, false)
  | .bool b => (.bool b, false)
  | .num n => (.num n, false)
  | .str s => (.str s, false)
  | .arr xs =>
    let r := propRecList l xs
    (.arr r.1, r.2)
  | .obj [(k, v)] =>
    if k = "Ref" then
      match v with
      | .str s =>
        if s = l then (.obj [("Ref", .str (l ++ " (replaced)"))], true)
        else (.obj [(k, v)], false)
      | _ => (.obj [(k, v)], false)
    else if startsWithB k "Fn::" then
      match v with
      | .arr (.str s :: rest) =>
        if s = l then (.obj [(k, .arr (.str (l ++ "(replaced)") :: rest))], true)
        else (.obj [(k, v)], false)
      | _ => (.obj [(k, v)], false)
    else
      let r := propRec l v
      (.obj [(k, r.1)], r.2)
  | .obj kvs =>
    let r := propRecKVs l kvs
    (.obj r.1, r.2)

def propRecList (l : String) : List JSON → List JSON × Bool
  | [] => ([], false)
  | x :: xs =>
    let r := propRec l x
    let rs := propRecList l xs
    (r.1 :: rs.1, r.2 || rs.2)

def propRecKVs (l : String) : List (String × JSON) → List (String × JSON) × Bool
  | [] => ([], false)
  | (k, v) :: kvs =>
    let r := propRec l v
    let rs := propRecKVs l kvs
    ((k, r.1) :: rs.1, r.2 || rs.2)
end

/-- Translated from diff-template.ts lines 92 to 102: copy every property
difference of the source that has a replacement impact into the
destination. -/
def propagatePropertyReplacement (source dest : ResourceDifference) : ResourceDifference :=
  source.propertyDiffs.foldl (fun acc p =>
    if isReplacementB p.2.changeImpact then acc.setPropertyChange p.1 p.2 else acc) dest

/-- Collection lookup, spec 3: never null, an absent key synthesizes an
unchanged empty difference. -/
def collGet (rs : List (String × ResourceDifference)) (id : String) : ResourceDifference :=
  (alget rs id).getD emptyResourceDifference

/-- Update the entry of one key of a collection in place; an absent key
leaves the collection unchanged, since a difference synthesized by collGet
is not stored in the collection and mutating it has no effect on the
diff that is returned. -/
def collUpdate (rs : List (String × ResourceDifference)) (id : String)
    (f : ResourceDifference → ResourceDifference) : List (String × ResourceDifference) :=
  rs.map (fun p => if p.1 = id then (p.1, f p.2) else p)

/-- Translated from diff-template.ts lines 77 to 83, the body of the final
forEachDifference: fetch the resource difference of the original diff and,
when its impact differs from the downstream one, propagate the replacement
property differences into it. -/
def patchStep (acc : TemplateDiff) (p : String × ResourceDifference) : TemplateDiff :=
  let resource := collGet acc.resources p.1
  if resource.changeImpact == p.2.changeImpact then acc
  else { acc with resources := collUpdate acc.resources p.1 (propagatePropertyReplacement p.2) }

/-- Translated from diff-template.ts lines 74 to 83: for every resource of
the propagated diff whose impact is a replacement, and whose impact differs
from the one recorded in the original diff, propagate the replacement
property differences into the original diff. -/
def patchBack (downRes : List (String × ResourceDifference)) (theDiff : TemplateDiff) :
    TemplateDiff :=
  (downRes.filter (fun p => isReplacementB p.2.changeImpact)).foldl patchStep theDiff

/-- The logical ids whose resource difference has impact WILL_REPLACE in
the diff of the old template against the working copy: the ids the loop
body of diffTemplate (lines 63 to 71) propagates, in collection order. -/
def willReplaceIds (st : Statics) (repl : Option Replacements) (c copy : JSON) :
    List String :=
  (((calculateTemplateDiff st c copy repl false).resources).filter
    (fun p => p.2.changeImpact == ResourceImpact.WILL_REPLACE)).map Prod.fst

/-- Run propagateReplacedReferences for each id in turn on the working
copy, accumulating whether any reference was rewritten. -/
def stepFold (ids : List String) (start : JSON × Bool) : JSON × Bool :=
  ids.foldl (fun acc l =>
    let r := propRec l acc.1
    (r.1, acc.2 || r.2)) start

/-- One iteration of the do-while loop of diffTemplate (lines 58 to 72):
recompute the diff against the working copy and run
propagateReplacedReferences for every WILL_REPLACE resource, accumulating
whether any reference was rewritten. -/
def stepCopy (st : Statics) (repl : Option Replacements) (c : JSON) (copy : JSON) :
    JSON × Bool :=
  stepFold (willReplaceIds st repl c copy) (copy, false)

/-- The do-while loop of diffTemplate, with explicit fuel: iterate stepCopy
while it keeps changing the working copy.  Theorem loopGo_fixpoint below
shows the fuel chosen by diffTemplate always suffices to reach the fixed
point, so the embedding computes the same copy the unbounded JS loop
converges to. -/
def loopGo (st : Statics) (repl : Option Replacements) (c : JSON) :
    Nat → JSON → JSON
  | 0, copy => copy
  | fuel + 1, copy =>
    let r := stepCopy st repl c copy
    if r.2 then loopGo st repl c fuel r.1 else copy

/-- Number of loop iterations that change the working copy, up to the given
fuel. -/
def changedIters (st : Statics) (repl : Option Replacements) (c : JSON) :
    Nat → JSON → Nat
  | 0, _ => 0
  | fuel + 1, copy =>
    let r := stepCopy st repl c copy
    if r.2 then changedIters st repl c fuel r.1 + 1 else 0

/-- Logical ids of the Resources section of a template, along the same
access path the section handler of calculateTemplateDiff uses. -/
def resKeys (t : JSON) : List String :=
  keysOf (objEntriesOpt (alget (objEntriesOpt (some t)) "Resources"))

mutual
/-- The shape of a document: every string payload blanked out.  The
propagation rewrites only replace string payloads, so they preserve this
shape (theorem propRec_blank); in particular the logical id set of the
working copy never changes during the loop. -/
def blankStrings : JSON → JSON
  | .null => .null
  | .bool b => .bool b
  | .num n => .num n
  | .str _ => .str ""
  | .arr xs => .arr (blankList xs)
  | .obj kvs => .obj (blankKVs kvs)

def blankList : List JSON → List JSON
  | [] => []
  | x :: xs => blankStrings x :: blankList xs

def blankKVs : List (String × JSON) → List (String × JSON)
  | [] => []
  | (k, v) :: kvs => (k, blankStrings v) :: blankKVs kvs
end

/-- Count of the elements of S at least as long as the given string. -/
def countGE (S : List String) (s : String) : Nat :=
  (S.filter (fun t => decide (s.length ≤ t.length))).length

mutual
/-- Termination measure of the propagation loop: every rewrite replaces a
string that is a logical id of S by a strictly longer string, so this sum
strictly decreases with every iteration that changes the copy. -/
def Phi (S : List String) : JSON → Nat
  | .null => 0
  | .bool _ => 0
  | .num _ => 0
  | .str s => countGE S s
  | .arr xs => PhiList S xs
  | .obj kvs => PhiKVs S kvs

def PhiList (S : List String) : List JSON → Nat
  | [] => 0
  | x :: xs => Phi S x + PhiList S xs

def PhiKVs (S : List String) : List (String × JSON) → Nat
  | [] => 0
  | (_, v) :: kvs => Phi S v + PhiKVs S kvs
end

/-- The fuel diffTemplate hands to the propagation loop; always enough to
reach the fixed point (theorem loopGo_fixpoint). -/
def loopFuel (c copy : JSON) : Nat :=
  Phi (sortedUnion (resKeys c) (resKeys copy)) copy + 1

/-- The working copy after the propagation loop of diffTemplate has
converged. -/
def convergedCopy (st : Statics) (repl : Option Replacements) (c n : JSON) : JSON :=
  let copy := deepCopy n
  loopGo st repl c (loopFuel c copy) copy

/-- A property target of a change set detail record. -/
structure PropertyTarget where
  attr : Option String
  name : Option String
  requiresRecreation : Option String

/-- One property level change record of a change set. -/
structure ResourceChangeDetail where
  target : Option PropertyTarget
  evaluation : Option String

/-- The resource change data of one change set entry. -/
structure ResourceChangeInfo where
  logicalResourceId : Option String
  replacement : Option String
  details : Option (List ResourceChangeDetail)

/-- One entry of the Changes list of a change set. -/
structure ChangeSetEntry where
  resourceChange : Option ResourceChangeInfo

/-- The DescribeChangeSetOutput shape diffTemplate consumes. -/
structure ChangeSetData where
  changes : Option (List ChangeSetEntry)

/-- Translated from diff-template.ts lines 204 to 217: fold one property
change record into the propertiesReplaced map of its resource. -/
def detailStep (acc : List (String × Option String)) (pc : ResourceChangeDetail) :
    List (String × Option String) :=
  if (pc.target.bind PropertyTarget.attr) = some "Properties" then
    let requiresReplacement :=
      decide ((pc.target.bind PropertyTarget.requiresRecreation) = some "Always")
    let value : Option String :=
      if requiresReplacement && decide (pc.evaluation = some "Static") then some "Always"
      else if requiresReplacement && decide (pc.evaluation = some "Dynamic") then
        some "Conditionally"
      else pc.target.bind PropertyTarget.requiresRecreation
    upsert acc ((pc.target.bind PropertyTarget.name).getD "undefined") value
  else acc

/-- Translated from diff-template.ts lines 200 to 225: build the
ResourceReplacements oracle from a change set. -/
def findResourceReplacements (cs : ChangeSetData) : Replacements :=
  (cs.changes.getD []).foldl (fun replacements rc =>
    let propertiesReplaced :=
      ((rc.resourceChange.bind ResourceChangeInfo.details).getD []).foldl detailStep []
    upsert replacements ((rc.resourceChange.bind ResourceChangeInfo.logicalResourceId).getD "")
      ⟨decide ((rc.resourceChange.bind ResourceChangeInfo.replacement) = some "True"),
        propertiesReplaced⟩) []

/-- Translated from diff-template.ts line 51: the keepMetadata flag of the
base diff is false when a change set was supplied and true when not. -/
def baseKeepMetadata (cs : Option ChangeSetData) : Bool :=
  match cs with
  | some _ => false
  | none => true

/-- diffTemplate with the keepMetadata choice for the base diff as a
parameter; diffTemplate instantiates it with the choice of line 51. -/
def diffTemplateKeep (kmOf : Option ChangeSetData → Bool) (st : Statics) (c n : JSON)
    (cs : Option ChangeSetData) : TemplateDiff :=
  let repl := cs.map findResourceReplacements
  let theDiff := calculateTemplateDiff st c n repl (kmOf cs)
  let fix := convergedCopy st repl c n
  let down := calculateTemplateDiff st c fix repl false
  patchBack down.resources theDiff

/-- Translated from diff-template.ts lines 44 to 86: compute the base diff,
iterate the propagation loop on a deep copy of the new template to its
fixed point, and copy the replacement states of the converged diff back
into the base diff.  The diff the final loop iteration computed equals the
diff of the converged copy, which is what patchBack receives here. -/
def diffTemplate (st : Statics) (c n : JSON) (cs : Option ChangeSetData) : TemplateDiff :=
  diffTemplateKeep baseKeepMetadata st c n cs

/-- Written from the words of claim C2: the claim asserts the base diff is
computed with keepMetadata false exactly when no oracle was supplied. -/
def claimedKeepMetadata (cs : Option ChangeSetData) : Bool :=
  match cs with
  | some _ => true
  | none => false

/-- Written from the words of claim C6: the verdict recorded for one
property change: Static evaluation with RequiresRecreation Always records
Always, Dynamic evaluation with RequiresRecreation Always records
Conditionally, and every other case passes the raw RequiresRecreation
verdict through. -/
def claimedDetailVerdict (pc : ResourceChangeDetail) : Option String :=
  if decide (pc.evaluation = some "Static") &&
      decide ((pc.target.bind PropertyTarget.requiresRecreation) = some "Always") then
    some "Always"
  else if decide (pc.evaluation = some "Dynamic") &&
      decide ((pc.target.bind PropertyTarget.requiresRecreation) = some "Always") then
    some "Conditionally"
  else pc.target.bind PropertyTarget.requiresRecreation

/-- Written from the words of claim C6: a detail record is recorded exactly
when it targets the Properties attribute, under its target property name,
with the verdict of claimedDetailVerdict. -/
def claimedDetailStep (acc : List (String × Option String)) (pc : ResourceChangeDetail) :
    List (String × Option String) :=
  if (pc.target.bind PropertyTarget.attr) = some "Properties" then
    upsert acc ((pc.target.bind PropertyTarget.name).getD "undefined") (claimedDetailVerdict pc)
  else acc

/-- Written from the words of claim C6: the oracle as the claim describes
it: per resource change, resourceReplaced holds exactly when the Replacement
field equals True, and the property verdicts are those of
claimedDetailStep. -/
def claimedFindResourceReplacements (cs : ChangeSetData) : Replacements :=
  (cs.changes.getD []).foldl (fun replacements rc =>
    upsert replacements ((rc.resourceChange.bind ResourceChangeInfo.logicalResourceId).getD "")
      ⟨decide ((rc.resourceChange.bind ResourceChangeInfo.replacement) = some "True"),
        ((rc.resourceChange.bind ResourceChangeInfo.details).getD []).foldl claimedDetailStep []⟩)
    []

/-- The base diff of step 1 of diffTemplate, before propagation. -/
def baseDiffOf (st : Statics) (c n : JSON) (cs : Option ChangeSetData) : TemplateDiff :=
  calculateTemplateDiff st c n (cs.map findResourceReplacements) (baseKeepMetadata cs)

/-- The diff of the old template against the converged working copy, the
diffWithReplacements the loop of diffTemplate ends with. -/
def convergedDiffOf (st : Statics) (c n : JSON) (cs : Option ChangeSetData) : TemplateDiff :=
  calculateTemplateDiff st c (convergedCopy st (cs.map findResourceReplacements) c n)
    (cs.map findResourceReplacements) false

/-- A static table marking every property of every resource type as
requiring recreation; used by the concrete examples below. -/
def stAlways : Statics := fun _ _ => some "Always"

/-- Old template of the C1 example: resource A of type T1, resource B
whose Source property references A and whose Q property is 1. -/
def tmplAold : JSON := .obj [("Resources", .obj [
  ("A", .obj [("Type", .str "T1")]),
  ("B", .obj [("Type", .str "T"), ("Properties", .obj
    [("Source", .obj [("Ref", .str "A")]), ("Q", .num 1)])])])]

/-- New template of the C1 example: A changes type to T2, B changes Q to 2
and keeps the Source reference to A textually unchanged. -/
def tmplAnew : JSON := .obj [("Resources", .obj [
  ("A", .obj [("Type", .str "T2")]),
  ("B", .obj [("Type", .str "T"), ("Properties", .obj
    [("Source", .obj [("Ref", .str "A")]), ("Q", .num 2)])])])]

/-- A resource body of type T whose only other attribute is Metadata with
the given value. -/
def metaBody (m : JSON) : JSON := .obj [("Type", .str "T"), ("Metadata", m)]

/-- A template with a single resource R whose only attribute next to its
type is a Metadata attribute with the given value. -/
def metaTemplate (m : JSON) : JSON := .obj [("Resources", .obj [("R", metaBody m)])]

/-- Old template of the C2 example: the Metadata attribute is 1. -/
def tmplMold : JSON := metaTemplate (.num 1)

/-- New template of the C2 example: the Metadata attribute becomes 2. -/
def tmplMnew : JSON := metaTemplate (.num 2)

/-- Old template of the C3 example.  Two resources: A, whose property V
holds an Fn:: reference headed by the string A(replaced), and a resource
whose logical id is literally A(replaced), with properties P, headed by
A(replaced)(replaced), and Q, headed by A. -/
def tmplBold : JSON := .obj [("Resources", .obj [
  ("A", .obj [("Type", .str "T"), ("Properties", .obj
    [("V", .obj [("Fn::H", .arr [.str "A(replaced)"])])])]),
  ("A(replaced)", .obj [("Type", .str "T"), ("Properties", .obj [
    ("P", .obj [("Fn::F", .arr [.str "A(replaced)(replaced)"])]),
    ("Q", .obj [("Fn::G", .arr [.str "A"])])])])])]

/-- New template of the C3 example: identical to the old one except that
property P of resource A(replaced) is headed by A(replaced) instead of
A(replaced)(replaced). -/
def tmplBnew : JSON := .obj [("Resources", .obj [
  ("A", .obj [("Type", .str "T"), ("Properties", .obj
    [("V", .obj [("Fn::H", .arr [.str "A(replaced)"])])])]),
  ("A(replaced)", .obj [("Type", .str "T"), ("Properties", .obj [
    ("P", .obj [("Fn::F", .arr [.str "A(replaced)"])]),
    ("Q", .obj [("Fn::G", .arr [.str "A"])])])])])]

/-- Old template of the C5 example: resource A of type T1, a resource whose
logical id is literally A(replaced), and resource B whose property S holds
an Fn:: reference headed by A. -/
def tmplCold : JSON := .obj [("Resources", .obj [
  ("A", .obj [("Type", .str "T1")]),
  ("A(replaced)", .obj [("Type", .str "T")]),
  ("B", .obj [("Type", .str "T"), ("Properties", .obj
    [("S", .obj [("Fn::F", .arr [.str "A"])])])])])]

/-- New template of the C5 example: A changes type to T2, everything else
is unchanged. -/
def tmplCnew : JSON := .obj [("Resources", .obj [
  ("A", .obj [("Type", .str "T2")]),
  ("A(replaced)", .obj [("Type", .str "T")]),
  ("B", .obj [("Type", .str "T"), ("Properties", .obj
    [("S", .obj [("Fn::F", .arr [.str "A"])])])])])]

/-- A mutable JS value of the heap model for the frame claim: primitives
are held inline, arrays and objects live behind a heap reference. -/
inductive HVal where
  | hnull : HVal
  | hbool : Bool → HVal
  | hnum : Int → HVal
  | hstr : String → HVal
  | href : Nat → HVal

/-- A heap node: the two mutable object kinds of JS. -/
inductive HNode where
  | harr : List HVal → HNode
  | hobj : List (String × HVal) → HNode

mutual
/-- Read a document out of a heap, following references with fuel so that
reading is total on arbitrary (even cyclic) heaps. -/
def decodeV : Nat → List HNode → HVal → Option JSON
  | _, _, .hnull => some .null
  | _, _, .hbool b => some (.bool b)
  | _, _, .hnum n => some (.num n)
  | _, _, .hstr s => some (.str s)
  | 0, _, .href _ => none
  | fuel+1, h, .href a =>
    match h.get? a with
    | some (.harr xs) => (decodeL fuel h xs).map JSON.arr
    | some (.hobj kvs) => (decodeKV fuel h kvs).map JSON.obj
    | none => none

def decodeL : Nat → List HNode → List HVal → Option (List JSON)
  | _, _, [] => some []
  | fuel, h, x :: xs =>
    match decodeV fuel h x, decodeL fuel h xs with
    | some j, some js => some (j :: js)
    | _, _ => none

def decodeKV : Nat → List HNode → List (String × HVal) → Option (List (String × JSON))
  | _, _, [] => some []
  | fuel, h, (k, v) :: kvs =>
    match decodeV fuel h v, decodeKV fuel h kvs with
    | some j, some js => some ((k, j) :: js)
    | _, _ => none
end

mutual
/-- Translated from diff-template.ts lines 184 to 198 at the heap level:
deepCopy allocates a fresh node for every array or object it visits, so
the copy shares no node with the source.  Allocation appends to the heap;
the copy of a scalar is the scalar itself. -/
def deepCopyHV : Nat → List HNode → HVal → List HNode × HVal
  | _, h, .hnull => (h, .hnull)
  | _, h, .hbool b => (h, .hbool b)
  | _, h, .hnum n => (h, .hnum n)
  | _, h, .hstr s => (h, .hstr s)
  | 0, h, .href _ => (h, .hnull)
  | fuel+1, h, .href a =>
    match h.get? a with
    | some (.harr xs) =>
      let r := deepCopyHL fuel h xs
      (r.1 ++ [.harr r.2], .href r.1.length)
    | some (.hobj kvs) =>
      let r := deepCopyHKV fuel h kvs
      (r.1 ++ [.hobj r.2], .href r.1.length)
    | none => (h, .hnull)

def deepCopyHL : Nat → List HNode → List HVal → List HNode × List HVal
  | _, h, [] => (h, [])
  | fuel, h, x :: xs =>
    let r := deepCopyHV fuel h x
    let rs := deepCopyHL fuel r.1 xs
    (rs.1, r.2 :: rs.2)

def deepCopyHKV : Nat → List HNode → List (String × HVal) →
    List HNode × List (String × HVal)
  | _, h, [] => (h, [])
  | fuel, h, (k, v) :: kvs =>
    let r := deepCopyHV fuel h v
    let rs := deepCopyHKV fuel r.1 kvs
    (rs.1, (k, r.2) :: rs.2)
end

mutual
/-- Translated from diff-template.ts lines 141 to 182 at the heap level:
propagateReplacedReferences mutates the object graph under the given root
in place.  A single-key Ref object whose value is the logical id gets its
node overwritten with the marker; a single-key Fn:: object whose value is
an array headed by the logical id gets the array node overwritten with the
marker in the head slot; recognized Ref and Fn:: objects are not recursed
into; every other object and every array is recursed, threading the heap.
Fuel bounds the traversal so the function is total on cyclic heaps; an
exhausted traversal performs no write. -/
def propHV : Nat → String → List HNode → HVal → List HNode × Bool
  | _, _, h, .hnull => (h, false)
  | _, _, h, .hbool _ => (h, false)
  | _, _, h, .hnum _ => (h, false)
  | _, _, h, .hstr _ => (h, false)
  | 0, _, h, .href _ => (h, false)
  | fuel+1, l, h, .href a =>
    match h.get? a with
    | none => (h, false)
    | some (.harr xs) => propHL fuel l h xs
    | some (.hobj [(k, v)]) =>
      if k = "Ref" then
        match v with
        | .hstr s =>
          if s = l then (h.set a (.hobj [("Ref", .hstr (l ++ " (replaced)"))]), true)
          else (h, false)
        | _ => (h, false)
      else if startsWithB k "Fn::" then
        match v with
        | .href b =>
          match h.get? b with
          | some (.harr (x :: rest)) =>
            match x with
            | .hstr s =>
              if s = l then (h.set b (.harr (.hstr (l ++ "(replaced)") :: rest)), true)
              else (h, false)
            | _ => (h, false)
          | _ => (h, false)
        | _ => (h, false)
      else propHV fuel l h v
    | some (.hobj kvs) => propHKV fuel l h kvs

def propHL : Nat → String → List HNode → List HVal → List HNode × Bool
  | _, _, h, [] => (h, false)
  | fuel, l, h, x :: xs =>
    let r := propHV fuel l h x
    let rs := propHL fuel l r.1 xs
    (rs.1, r.2 || rs.2)

def propHKV : Nat → String → List HNode → List (String × HVal) → List HNode × Bool
  | _, _, h, [] => (h, false)
  | fuel, l, h, (_, v) :: kvs =>
    let r := propHV fuel l h v
    let rs := propHKV fuel l r.1 kvs
    (rs.1, r.2 || rs.2)
end

/-- One iteration of the propagation loop at the heap level: run the
in-place rewriter on the working copy root once for every logical id the
iteration selected. -/
def propagateMany (fuel : Nat) (ids : List String) (h : List HNode) (root : HVal) :
    List HNode :=
  ids.foldl (fun hh l => (propHV fuel l hh root).1) h

/-- All heap mutations the do-while loop of diffTemplate performs: one
id list per iteration, every rewrite rooted at the working copy. -/
def heapMutations (fuel : Nat) (idss : List (List String)) (h : List HNode)
    (root : HVal) : List HNode :=
  idss.foldl (fun hh ids => propagateMany fuel ids hh root) h

/-- The stateful part of diffTemplate (lines 53 to 72) at the heap level:
deep-copy the new template, then mutate only through the copy root.  The
id lists are parameters because the frame claim quantifies over whatever
ids the intervening pure diffs select. -/
def diffTemplateHeap (fuel : Nat) (idss : List (List String)) (h : List HNode)
    (newRoot : HVal) : List HNode × HVal :=
  let r := deepCopyHV fuel h newRoot
  (heapMutations fuel idss r.1 r.2, r.2)

/-- Every reference of the value points below n. -/
def valBelow (n : Nat) : HVal → Prop
  | .href a => a < n
  | _ => True

/-- Every reference of the node points below n. -/
def nodeBelow (n : Nat) : HNode → Prop
  | .harr xs => ∀ v ∈ xs, valBelow n v
  | .hobj kvs => ∀ p ∈ kvs, valBelow n p.2

/-- Every node of the heap references only addresses below n: the heap is
self-contained below n. -/
def heapClosed (n : Nat) (h : List HNode) : Prop :=
  ∀ i node, h.get? i = some node → nodeBelow n node

/-- The value references no address below n. -/
def valHigh (n : Nat) : HVal → Prop
  | .href a => n ≤ a
  | _ => True

/-- The node references no address below n. -/
def nodeHigh (n : Nat) : HNode → Prop
  | .harr xs => ∀ v ∈ xs, valHigh n v
  | .hobj kvs => ∀ p ∈ kvs, valHigh n p.2

/-- Every node stored at an address at or above n references only
addresses at or above n: the region from n up is closed in itself.  The
deep copy allocates only such nodes, and the rewriter preserves the
property, which is what confines every write to the copy region. -/
def heapHigh (n : Nat) (h : List HNode) : Prop :=
  ∀ i node, n ≤ i → h.get? i = some node → nodeHigh n node

/-- Decidable check that a value references only addresses below n. -/
def valBelowB (n : Nat) : HVal → Bool
  | .href a => decide (a < n)
  | _ => true

/-- Decidable check that a node references only addresses below n. -/
def nodeBelowB (n : Nat) : HNode → Bool
  | .harr xs => xs.all (valBelowB n)
  | .hobj kvs => kvs.all (fun p => valBelowB n p.2)

/-- Decidable check that the heap is self-contained. -/
def heapClosedB (h : List HNode) : Bool := h.all (nodeBelowB h.length)

/-- Two documents that are both objects whose entry lists are permutations
of each other carrying the same values, with no duplicate keys: the
relation between two JS objects built from the same key-value set in a
different insertion order.  The determinism claim is that the diff engine
cannot observe this difference. -/
def TopPerm (a b : JSON) : Prop :=
  ∃ ws ws2, a = JSON.obj ws ∧ b = JSON.obj ws2 ∧ List.Perm ws ws2 ∧ (keysOf ws).Nodup

/-- All section collections of a diff are empty and no attribute difference
was recorded. -/
def isEmptyTemplateDiff (d : TemplateDiff) : Bool :=
  d.awsTemplateFormatVersion.isNone && d.description.isNone && d.transform.isNone &&
    d.metadata.isEmpty && d.parameters.isEmpty && d.mappings.isEmpty &&
    d.conditions.isEmpty && d.outputs.isEmpty && d.resources.isEmpty && d.unknown.isEmpty

mutual
theorem jeq_refl : ∀ a : JSON, jeq a a = true
  | .null => rfl
  | .bool b => by simp [jeq]
  | .num n => by simp [jeq]
  | .str s => by simp [jeq]
  | .arr xs => by simp only [jeq]; exact jeqList_refl xs
  | .obj kvs => by simp only [jeq]; exact jeqKVs_refl kvs

theorem jeqList_refl : ∀ xs : List JSON, jeqList xs xs = true
  | [] => rfl
  | x :: xs => by simp only [jeqList, Bool.and_eq_true]; exact ⟨jeq_refl x, jeqList_refl xs⟩

theorem jeqKVs_refl : ∀ kvs : List (String × JSON), jeqKVs kvs kvs = true
  | [] => rfl
  | (k, v) :: kvs => by
    simp only [jeqKVs, Bool.and_eq_true, beq_self_eq_true, true_and]
    exact ⟨jeq_refl v, jeqKVs_refl kvs⟩
end

theorem deepEqual_refl (a : JSON) : deepEqual a a = true := jeq_refl (canon a)

theorem deepEqualOpt_refl (o : Option JSON) : deepEqualOpt o o = true := by
  cases o with
  | none => rfl
  | some a => exact deepEqual_refl a

mutual
theorem deepCopy_id : ∀ a : JSON, deepCopy a = a
  | .null => rfl
  | .bool b => rfl
  | .num n => rfl
  | .str s => rfl
  | .arr xs => by simp only [deepCopy]; rw [deepCopyList_id xs]
  | .obj kvs => by simp only [deepCopy]; rw [deepCopyKVs_id kvs]

theorem deepCopyList_id : ∀ xs : List JSON, deepCopyList xs = xs
  | [] => rfl
  | x :: xs => by simp only [deepCopyList]; rw [deepCopy_id x, deepCopyList_id xs]

theorem deepCopyKVs_id : ∀ kvs : List (String × JSON), deepCopyKVs kvs = kvs
  | [] => rfl
  | (k, v) :: kvs => by simp only [deepCopyKVs]; rw [deepCopy_id v, deepCopyKVs_id kvs]
end

theorem calculateTemplateDiff_self (st : Statics) (t : JSON) (repl : Option Replacements)
    (km : Bool) : calculateTemplateDiff st t t repl km = emptyTemplateDiff := by
  unfold calculateTemplateDiff
  generalize processedKeys t t = ks
  simp only [deepEqualOpt_refl, if_true]
  induction ks with
  | nil => rfl
  | cons k ks ih => simp only [List.foldl_cons]; exact ih

theorem stepCopy_self (st : Statics) (repl : Option Replacements) (t : JSON) :
    stepCopy st repl t t = (t, false) := by
  unfold stepCopy willReplaceIds
  rw [calculateTemplateDiff_self]
  rfl

theorem convergedCopy_self (st : Statics) (repl : Option Replacements) (t : JSON) :
    convergedCopy st repl t t = t := by
  unfold convergedCopy loopFuel
  rw [deepCopy_id]
  show loopGo st repl t (Phi (sortedUnion (resKeys t) (resKeys t)) t + 1) t = t
  rw [loopGo]
  simp [stepCopy_self]

theorem propRecKVs_spec (l : String) : ∀ kvs : List (String × JSON),
    propRecKVs l kvs =
      (kvs.map (fun p => (p.1, (propRec l p.2).1)), kvs.any (fun p => (propRec l p.2).2)) := by
  intro kvs
  induction kvs with
  | nil => rfl
  | cons p kvs ih =>
    obtain ⟨k, v⟩ := p
    simp only [propRecKVs, ih, List.map_cons, List.any_cons]

theorem startsWith_ne_Ref {k : String} (h : startsWithB k "Fn::" = true) : k ≠ "Ref" := by
  intro h2
  subst h2
  simp only [startsWithB] at h
  exact absurd h (by decide)

theorem stringAppend_ne_left (l : String) {a b : String} (h : a.data ≠ b.data) :
    l ++ a ≠ l ++ b := by
  intro h2
  have h3 : (l ++ a).data = (l ++ b).data := congrArg String.data h2
  rw [String.data_append, String.data_append] at h3
  exact h (List.append_cancel_left h3)

theorem stringAppend_ne_self (l : String) {a : String} (h : a.data ≠ []) : l ++ a ≠ l := by
  intro h2
  have h3 : (l ++ a).data = l.data := congrArg String.data h2
  rw [String.data_append] at h3
  have h4 : l.data ++ a.data = l.data ++ [] := by simpa using h3
  exact h (List.append_cancel_left h4)

/-- Claim C9: during propagation an object is treated as a reference
expression only if it has exactly one key, and a recognized single key Ref
or Fn:: object is never recursed into: the tail of an Fn:: argument array
is returned verbatim, so a reference nested inside the arguments of
another intrinsic is never rewritten; an object value under a Ref or Fn::
key is returned verbatim; an object with any number of keys other than one
has its values recursed individually with no top level rewrite, and since
a bare string is never rewritten, a Ref entry sitting alongside other keys
is never rewritten. -/
theorem C9_reference_recognition (l k : String) (xs : List JSON)
    (kvs2 : List (String × JSON)) (rest : List (String × JSON))
    (hk : startsWithB k "Fn::" = true) (hn : rest.length ≠ 1) :
    propRec l (.obj [(k, .arr (.str l :: xs))]) =
      (.obj [(k, .arr (.str (l ++ "(replaced)") :: xs))], true) ∧
    propRec l (.obj [(k, .arr (.obj kvs2 :: xs))]) = (.obj [(k, .arr (.obj kvs2 :: xs))], false) ∧
    propRec l (.obj [(k, .obj kvs2)]) = (.obj [(k, .obj kvs2)], false) ∧
    propRec l (.obj [("Ref", .obj kvs2)]) = (.obj [("Ref", .obj kvs2)], false) ∧
    propRec l (.obj rest) =
      (.obj (rest.map (fun p => (p.1, (propRec l p.2).1))), rest.any (fun p => (propRec l p.2).2)) ∧
    propRec l (.str l) = (.str l, false) := by
  have hkr : k ≠ "Ref" := startsWith_ne_Ref hk
  refine ⟨?_, ?_, ?_, ?_, ?_, rfl⟩
  · simp [propRec, hkr, hk]
  · simp [propRec, hkr, hk]
  · simp [propRec, hkr, hk]
  · simp [propRec]
  · match rest, hn with
    | [], _ => simp [propRec, propRecKVs_spec]
    | (p :: q :: rest), _ => simp [propRec, propRecKVs_spec]

/-- Claim C10: the propagation rewrite maps a Ref reference to the marker
with a space, logicalId ++ " (replaced)", and the head of an Fn:: intrinsic
argument array to the marker without a space, logicalId ++ "(replaced)";
the two markers always differ from each other and from the logical id
itself. -/
theorem C10_marker_strings (l k : String) (rest : List JSON)
    (hk : startsWithB k "Fn::" = true) :
    propRec l (.obj [("Ref", .str l)]) = (.obj [("Ref", .str (l ++ " (replaced)"))], true) ∧
    propRec l (.obj [(k, .arr (.str l :: rest))]) =
      (.obj [(k, .arr (.str (l ++ "(replaced)") :: rest))], true) ∧
    l ++ " (replaced)" ≠ l ++ "(replaced)" ∧
    l ++ " (replaced)" ≠ l ∧
    l ++ "(replaced)" ≠ l := by
  have hkr : k ≠ "Ref" := startsWith_ne_Ref hk
  refine ⟨by simp [propRec], by simp [propRec, hkr, hk], ?_, ?_, ?_⟩
  · exact stringAppend_ne_left l (by decide)
  · exact stringAppend_ne_self l (by decide)
  · exact stringAppend_ne_self l (by decide)

/-- Witness for C9 at a concrete input: the argument tail of an Fn::GetAtt
intrinsic, holding a nested Ref to the same logical id, survives the
rewrite verbatim. -/
theorem C9_witness :
    startsWithB "Fn::GetAtt" "Fn::" = true ∧ ([] : List (String × JSON)).length ≠ 1 ∧
    propRec "A" (.obj [("Fn::GetAtt", .arr (.str "A" :: [.obj [("Ref", .str "A")]]))]) =
      (.obj [("Fn::GetAtt", .arr (.str "A(replaced)" :: [.obj [("Ref", .str "A")]]))], true) :=
  ⟨by decide, by decide,
    (C9_reference_recognition "A" "Fn::GetAtt" [.obj [("Ref", .str "A")]]
      [("Ref", .str "A")] [] (by decide) (by decide)).1⟩

/-- Witness for C10 at a concrete input. -/
theorem C10_witness :
    startsWithB "Fn::Sub" "Fn::" = true ∧
    propRec "B" (.obj [("Ref", .str "B")]) = (.obj [("Ref", .str "B (replaced)")], true) ∧
    propRec "B" (.obj [("Fn::Sub", .arr (.str "B" :: []))]) =
      (.obj [("Fn::Sub", .arr (.str "B(replaced)" :: []))], true) :=
  ⟨by decide, (C10_marker_strings "B" "Fn::Sub" [] (by decide)).1,
    (C10_marker_strings "B" "Fn::Sub" [] (by decide)).2.1⟩

theorem detailStep_eq_claimed : detailStep = claimedDetailStep := by
  funext acc pc
  unfold detailStep claimedDetailStep claimedDetailVerdict
  by_cases ha : (pc.target.bind PropertyTarget.attr) = some "Properties"
  · by_cases hr : (pc.target.bind PropertyTarget.requiresRecreation) = some "Always" <;>
      by_cases he : pc.evaluation = some "Static" <;>
      by_cases hd : pc.evaluation = some "Dynamic" <;>
      simp_all
  · simp [ha]

/-- Claim C6: for every change set, findResourceReplacements records, per
resource change, resourceReplaced true exactly when the Replacement field
equals True, and per property change targeting the Properties attribute:
Static evaluation with RequiresRecreation Always records Always, Dynamic
evaluation with RequiresRecreation Always records Conditionally, and every
other case passes the raw RequiresRecreation verdict through.  Stated as
equality with claimedFindResourceReplacements, which is written from the
words of the claim. -/
theorem C6_oracle_semantics (cs : ChangeSetData) :
    findResourceReplacements cs = claimedFindResourceReplacements cs := by
  unfold findResourceReplacements claimedFindResourceReplacements
  rw [detailStep_eq_claimed]

/-- Claim C4: diffing a well-formed template against itself yields the
empty diff: every top level key is skipped because old and new values are
deeply equal, so every section collection and attribute difference of the
returned TemplateDiff is empty.  Proved for every document and every
optional change set. -/
theorem C4_diff_self_empty (st : Statics) (t : JSON) (cs : Option ChangeSetData) :
    isEmptyTemplateDiff (diffTemplate st t t cs) = true := by
  simp only [diffTemplate, diffTemplateKeep, convergedCopy_self, calculateTemplateDiff_self]
  rfl

theorem diffTemplate_eq_patch (st : Statics) (c n : JSON) (cs : Option ChangeSetData) :
    diffTemplate st c n cs =
      patchBack (convergedDiffOf st c n cs).resources (baseDiffOf st c n cs) := rfl

theorem alget_cons (k : String) (v : α) (l : List (String × α)) (id : String) :
    alget ((k, v) :: l) id = if k = id then some v else alget l id := rfl

theorem collUpdate_cons (k : String) (v : ResourceDifference)
    (rs : List (String × ResourceDifference)) (id : String)
    (f : ResourceDifference → ResourceDifference) :
    collUpdate ((k, v) :: rs) id f =
      (if k = id then (k, f v) else (k, v)) :: collUpdate rs id f := by
  by_cases h : k = id
  · simp only [collUpdate, List.map_cons, if_pos h]
  · simp only [collUpdate, List.map_cons, if_neg h]

theorem alget_eq_none_of_not_mem {l : List (String × α)} {id : String}
    (h : id ∉ keysOf l) : alget l id = none := by
  induction l with
  | nil => rfl
  | cons p l ih =>
    obtain ⟨k, v⟩ := p
    simp only [keysOf, List.map_cons, List.mem_cons, not_or] at h
    rw [alget_cons, if_neg (fun h2 => h.1 h2.symm)]
    exact ih (by simpa [keysOf] using h.2)

theorem alget_collUpdate_self (rs : List (String × ResourceDifference)) (id : String)
    (f : ResourceDifference → ResourceDifference) :
    alget (collUpdate rs id f) id = (alget rs id).map f := by
  induction rs with
  | nil => rfl
  | cons p rs ih =>
    obtain ⟨k, v⟩ := p
    rw [collUpdate_cons]
    by_cases h : k = id
    · rw [if_pos h, alget_cons, if_pos h, alget_cons, if_pos h]
      rfl
    · rw [if_neg h, alget_cons, if_neg h, alget_cons, if_neg h]
      exact ih

theorem alget_collUpdate_ne (rs : List (String × ResourceDifference)) (j : String)
    (f : ResourceDifference → ResourceDifference) (id : String) (h : j ≠ id) :
    alget (collUpdate rs j f) id = alget rs id := by
  induction rs with
  | nil => rfl
  | cons p rs ih =>
    obtain ⟨k, v⟩ := p
    rw [collUpdate_cons]
    by_cases h2 : k = j
    · have h3 : k ≠ id := by rw [h2]; exact h
      rw [if_pos h2, alget_cons, if_neg h3, alget_cons, if_neg h3]
      exact ih
    · rw [if_neg h2]
      by_cases h3 : k = id
      · rw [alget_cons, if_pos h3, alget_cons, if_pos h3]
      · rw [alget_cons, if_neg h3, alget_cons, if_neg h3]
        exact ih

theorem alget_filter_val (l : List (String × α)) (f : α → Bool) (id : String)
    (h : (keysOf l).Nodup) :
    alget (l.filter (fun q => f q.2)) id =
      (alget l id).bind (fun v => if f v then some v else none) := by
  induction l with
  | nil => rfl
  | cons p l ih =>
    obtain ⟨k, v⟩ := p
    simp only [keysOf, List.map_cons, List.nodup_cons] at h
    have ihh := ih h.2
    rw [List.filter_cons, alget_cons]
    by_cases hk : k = id
    · rw [if_pos hk]
      by_cases hf : f v = true
      · rw [if_pos hf, alget_cons, if_pos hk]
        simp [hf]
      · rw [if_neg hf]
        have hnone : alget (l.filter (fun q => f q.2)) id = none := by
          apply alget_eq_none_of_not_mem
          intro hmem
          apply h.1
          rw [← hk] at hmem
          exact (((List.filter_sublist l).map Prod.fst).subset (by exact hmem))
        rw [hnone]
        simp [hf]
    · rw [if_neg hk]
      by_cases hf : f v = true
      · rw [if_pos hf, alget_cons, if_neg hk]
        exact ihh
      · rw [if_neg hf]
        exact ihh

theorem sortedUnion_nodup (a b : List String) : (sortedUnion a b).Nodup := by
  unfold sortedUnion sortStrings
  exact ((List.perm_insertionSort strLe _).nodup_iff).mpr (List.nodup_dedup _)

theorem keysOf_cons (p : String × α) (l : List (String × α)) :
    keysOf (p :: l) = p.1 :: keysOf l := rfl

theorem keysOf_filterMap_ite (ks : List String) (p : String → Bool) (g : String → α) :
    keysOf (ks.filterMap (fun k => if p k then none else some (k, g k))) =
      ks.filter (fun k => !p k) := by
  induction ks with
  | nil => rfl
  | cons k ks ih =>
    by_cases h : p k
    · simp [List.filterMap_cons, List.filter_cons, h, keysOf_cons, ih]
    · simp [List.filterMap_cons, List.filter_cons, h, keysOf_cons, ih]

theorem keysOf_diffKeyedEntities (ed : String → Option JSON → Option JSON → α)
    (o n : Option JSON) :
    keysOf (diffKeyedEntities ed o n) =
      (sortedUnion (keysOf (objEntriesOpt o)) (keysOf (objEntriesOpt n))).filter
        (fun k => !deepEqualOpt (alget (objEntriesOpt o) k) (alget (objEntriesOpt n) k)) :=
  keysOf_filterMap_ite _ (fun k => deepEqualOpt (alget (objEntriesOpt o) k)
    (alget (objEntriesOpt n) k)) (fun k => ed k (alget (objEntriesOpt o) k)
    (alget (objEntriesOpt n) k))

theorem diffKeyedEntities_keys_nodup (ed : String → Option JSON → Option JSON → α)
    (o n : Option JSON) : (keysOf (diffKeyedEntities ed o n)).Nodup := by
  rw [keysOf_diffKeyedEntities]
  exact (sortedUnion_nodup _ _).filter _

theorem applyDiffHandler_resources (st : Statics) (repl : Option Replacements) (km : Bool)
    (acc : TemplateDiff) (key : String) (o n : Option JSON) :
    (applyDiffHandler st repl km acc key o n).resources =
      if key = "Resources" then diffKeyedEntities (diffResource st repl km) o n
      else acc.resources := by
  unfold applyDiffHandler
  split <;> simp_all

theorem foldl_calc_resources_nodup (st : Statics) (repl : Option Replacements) (km : Bool)
    (ce ne2 : List (String × JSON)) :
    ∀ (ks : List String) (acc : TemplateDiff), (keysOf acc.resources).Nodup →
    (keysOf ((ks.foldl (fun acc key =>
      let o := alget ce key
      let nn := alget ne2 key
      if deepEqualOpt o nn then acc else applyDiffHandler st repl km acc key o nn)
      acc)).resources).Nodup := by
  intro ks
  induction ks with
  | nil => exact fun acc h => h
  | cons k ks ih =>
    intro acc h
    simp only [List.foldl_cons]
    apply ih
    by_cases hq : deepEqualOpt (alget ce k) (alget ne2 k) = true
    · simpa [hq] using h
    · simp only [hq, Bool.false_eq_true, if_false, applyDiffHandler_resources]
      by_cases hr : k = "Resources"
      · rw [if_pos hr]
        exact diffKeyedEntities_keys_nodup _ _ _
      · rw [if_neg hr]
        exact h

theorem calc_resources_nodup (st : Statics) (c n : JSON) (repl : Option Replacements)
    (km : Bool) : (keysOf (calculateTemplateDiff st c n repl km).resources).Nodup := by
  unfold calculateTemplateDiff
  exact foldl_calc_resources_nodup st repl km _ _ (processedKeys c n) emptyTemplateDiff
    (by simp [emptyTemplateDiff, keysOf])

theorem patchStep_lookup_ne (D : TemplateDiff) (e : String × ResourceDifference)
    (id : String) (h : e.1 ≠ id) :
    alget (patchStep D e).resources id = alget D.resources id := by
  unfold patchStep
  by_cases hg : (collGet D.resources e.1).changeImpact == e.2.changeImpact
  · rw [if_pos hg]
  · rw [if_neg hg]
    exact alget_collUpdate_ne _ _ _ _ h

theorem foldPatch_lookup_none :
    ∀ (entries : List (String × ResourceDifference)) (D : TemplateDiff) (id : String),
    alget entries id = none →
    alget (entries.foldl patchStep D).resources id = alget D.resources id := by
  intro entries
  induction entries with
  | nil => intro D id _; rfl
  | cons e rest ih =>
    intro D id h
    obtain ⟨j, d⟩ := e
    rw [alget_cons] at h
    by_cases hj : j = id
    · rw [if_pos hj] at h
      exact absurd h (by simp)
    · rw [if_neg hj] at h
      simp only [List.foldl_cons]
      rw [ih _ _ h]
      exact patchStep_lookup_ne D (j, d) id hj

theorem foldPatch_lookup_some :
    ∀ (entries : List (String × ResourceDifference)) (D : TemplateDiff) (id : String)
    (d : ResourceDifference), (keysOf entries).Nodup → alget entries id = some d →
    alget (entries.foldl patchStep D).resources id = (alget D.resources id).map (fun b =>
      if b.changeImpact == d.changeImpact then b else propagatePropertyReplacement d b) := by
  intro entries
  induction entries with
  | nil => intro D id d _ h; exact absurd h (by simp [alget])
  | cons e rest ih =>
    intro D id d hnd halget
    obtain ⟨j, d0⟩ := e
    simp only [keysOf, List.map_cons, List.nodup_cons] at hnd
    rw [alget_cons] at halget
    simp only [List.foldl_cons]
    by_cases hj : j = id
    · rw [if_pos hj] at halget
      have hd : d0 = d := Option.some.inj halget
      subst hd
      have hnone : alget rest id = none := by
        apply alget_eq_none_of_not_mem
        rw [← hj]
        exact hnd.1
      rw [foldPatch_lookup_none rest _ id hnone]
      unfold patchStep
      by_cases hg : (collGet D.resources j).changeImpact == d0.changeImpact
      · rw [if_pos hg]
        cases hb : alget D.resources id with
        | none => rfl
        | some b =>
          have hcb : collGet D.resources j = b := by rw [collGet, hj, hb]; rfl
          rw [hcb] at hg
          rw [Option.map_some', if_pos hg]
      · rw [if_neg hg]
        show alget (collUpdate D.resources j (propagatePropertyReplacement d0)) id = _
        rw [hj, alget_collUpdate_self]
        cases hb : alget D.resources id with
        | none => rfl
        | some b =>
          have hcb : collGet D.resources j = b := by rw [collGet, hj, hb]; rfl
          rw [hcb] at hg
          have hg2 : ¬ ((b.changeImpact == d0.changeImpact) = true) := hg
          rw [Option.map_some', Option.map_some', if_neg hg2]
    · rw [if_neg hj] at halget
      rw [ih _ _ _ hnd.2 halget]
      rw [patchStep_lookup_ne D (j, d0) id hj]

/-- Claim C1 as amended: for every pair of templates and optional change
set, the resource collection of the diff diffTemplate returns is the base
diff where, for exactly those logical ids whose converged diff entry has a
replacement impact AND a resource level impact different from the base
entry, every property difference of the converged entry that itself has a
replacement impact overwrites the corresponding property difference of the
base entry; a logical id absent from the base diff resource collection is
left absent. -/
theorem alget_filter_repl (l : List (String × ResourceDifference)) (id : String)
    (h : (keysOf l).Nodup) :
    alget (l.filter (fun p => isReplacementB p.2.changeImpact)) id =
      (alget l id).bind (fun v => if isReplacementB v.changeImpact then some v else none) :=
  alget_filter_val l (fun x => isReplacementB x.changeImpact) id h

theorem C1_propagated_property_copy (st : Statics) (c n : JSON) (cs : Option ChangeSetData)
    (id : String) :
    alget (diffTemplate st c n cs).resources id =
      match alget (convergedDiffOf st c n cs).resources id,
            alget (baseDiffOf st c n cs).resources id with
      | some d, some b =>
        if isReplacementB d.changeImpact = true ∧ b.changeImpact ≠ d.changeImpact
        then some (propagatePropertyReplacement d b)
        else some b
      | _, x => x := by
  have hndall : (keysOf (convergedDiffOf st c n cs).resources).Nodup :=
    calc_resources_nodup st c (convergedCopy st (cs.map findResourceReplacements) c n)
      (cs.map findResourceReplacements) false
  have hsub : List.Sublist (keysOf ((convergedDiffOf st c n cs).resources.filter
      (fun p => isReplacementB p.2.changeImpact)))
      (keysOf (convergedDiffOf st c n cs).resources) :=
    (List.filter_sublist _).map Prod.fst
  have hfilter := alget_filter_repl (convergedDiffOf st c n cs).resources id hndall
  rw [diffTemplate_eq_patch]
  unfold patchBack
  cases hdown : alget (convergedDiffOf st c n cs).resources id with
  | none =>
    rw [hdown] at hfilter
    rw [foldPatch_lookup_none _ _ _ (by simpa using hfilter)]
  | some d =>
    rw [hdown] at hfilter
    simp only [Option.some_bind] at hfilter
    by_cases hrep : isReplacementB d.changeImpact = true
    · rw [if_pos hrep] at hfilter
      rw [foldPatch_lookup_some _ _ _ d (List.Nodup.sublist hsub hndall) hfilter]
      cases hbase : alget (baseDiffOf st c n cs).resources id with
      | none => rfl
      | some b =>
        show Option.map _ (some b) =
          if isReplacementB d.changeImpact = true ∧ b.changeImpact ≠ d.changeImpact
          then some (propagatePropertyReplacement d b) else some b
        rw [Option.map_some']
        by_cases hg : b.changeImpact = d.changeImpact
        · rw [if_pos (by simp [hg])]
          rw [if_neg (fun h2 => h2.2 hg)]
        · rw [if_neg (by simpa using hg)]
          rw [if_pos ⟨hrep, hg⟩]
    · rw [if_neg hrep] at hfilter
      rw [foldPatch_lookup_none _ _ _ hfilter]
      cases hbase : alget (baseDiffOf st c n cs).resources id with
      | none => rfl
      | some b =>
        show some b =
          if isReplacementB d.changeImpact = true ∧ b.changeImpact ≠ d.changeImpact
          then some (propagatePropertyReplacement d b) else some b
        rw [if_neg (fun h2 => hrep h2.1)]

/-- Claim C5 as amended: there is no collision detection anywhere in
diffTemplate: the synthetic marker written for a rewritten reference can
equal an existing logical id, in which case a later propagation pass for
that colliding id treats the marker as an ordinary reference and rewrites
it again, and the computation never aborts.  Stated for every logical id l:
propagating l on a template holding an Fn:: reference headed by l writes
the marker l ++ "(replaced)", and propagating the id l ++ "(replaced)" on
the result rewrites that same slot once more instead of failing. -/
theorem C5_collision_tolerated (l : String) (v : List JSON) :
    propRec l (.obj [("Fn::Select", .arr (.str l :: v))]) =
      (.obj [("Fn::Select", .arr (.str (l ++ "(replaced)") :: v))], true) ∧
    propRec (l ++ "(replaced)")
      ((propRec l (.obj [("Fn::Select", .arr (.str l :: v))])).1) =
      (.obj [("Fn::Select", .arr (.str ((l ++ "(replaced)") ++ "(replaced)") :: v))], true) := by
  have hk : startsWithB "Fn::Select" "Fn::" = true := by decide
  constructor
  · simp [propRec, hk]
  · simp [propRec, hk]

/-- Counterexample to claim C5 as stated: in the C5 example the new
template contains a resource whose logical id A(replaced) is exactly the
marker written when references to the replaced resource A are rewritten;
after propagation the working copy holds the string A(replaced) in the
rewritten slot of resource B, a collision with the real logical id, and
diffTemplate neither detects it nor aborts: it returns a complete non-empty
diff. -/
theorem C5_counterexample :
    "A(replaced)" ∈ resKeys tmplCnew ∧
    ((((((objLookup "Resources" (convergedCopy stAlways none tmplCold tmplCnew)).bind
      (objLookup "B")).bind (objLookup "Properties")).bind (objLookup "S")).bind
      (objLookup "Fn::F")).map (fun w => jeq w (.arr [.str "A(replaced)"]))) = some true ∧
    isEmptyTemplateDiff (diffTemplate stAlways tmplCold tmplCnew none) = false ∧
    (diffTemplate stAlways tmplCold tmplCnew none).resources.length = 1 := by
  refine ⟨by decide, by decide, by decide, by decide⟩

theorem deepEqual_metaBody (m₁ m₂ : JSON) :
    deepEqual (metaBody m₁) (metaBody m₂) = deepEqual m₁ m₂ := by
  show (jeq (canon m₁) (canon m₂) && true) = jeq (canon m₁) (canon m₂)
  exact Bool.and_true _

theorem deepEqual_single (k : String) (a b : JSON) :
    deepEqual (.obj [(k, a)]) (.obj [(k, b)]) = deepEqual a b := by
  show (((k == k) && jeq (canon a) (canon b)) && true) = jeq (canon a) (canon b)
  simp

theorem calc_meta (st : Statics) (repl : Option Replacements) (km : Bool) (m₁ m₂ : JSON)
    (h : deepEqual m₁ m₂ = false) :
    calculateTemplateDiff st (metaTemplate m₁) (metaTemplate m₂) repl km =
      { emptyTemplateDiff with resources :=
        [("R", diffResource st repl km "R" (some (metaBody m₁)) (some (metaBody m₂)))] } := by
  have hsec : deepEqualOpt (alget (objEntriesOpt (some (metaTemplate m₁))) "Resources")
      (alget (objEntriesOpt (some (metaTemplate m₂))) "Resources") = false := by
    show deepEqual (.obj [("R", metaBody m₁)]) (.obj [("R", metaBody m₂)]) = false
    rw [deepEqual_single, deepEqual_metaBody]
    exact h
  have hbody : deepEqualOpt (alget (objEntriesOpt (some (JSON.obj [("R", metaBody m₁)]))) "R")
      (alget (objEntriesOpt (some (JSON.obj [("R", metaBody m₂)]))) "R") = false := by
    show deepEqual (metaBody m₁) (metaBody m₂) = false
    rw [deepEqual_metaBody]
    exact h
  have hdke : diffKeyedEntities (diffResource st repl km)
      (some (JSON.obj [("R", metaBody m₁)])) (some (JSON.obj [("R", metaBody m₂)])) =
      [("R", diffResource st repl km "R" (some (metaBody m₁)) (some (metaBody m₂)))] := by
    simp only [diffKeyedEntities]
    have hk : sortedUnion (keysOf (objEntriesOpt (some (JSON.obj [("R", metaBody m₁)]))))
        (keysOf (objEntriesOpt (some (JSON.obj [("R", metaBody m₂)])))) = ["R"] := rfl
    rw [hk, List.filterMap_cons]
    rw [if_neg (by rw [hbody]; exact Bool.false_ne_true)]
    rfl
  simp only [calculateTemplateDiff]
  have hkeys : processedKeys (metaTemplate m₁) (metaTemplate m₂) = ["Resources"] := rfl
  rw [hkeys, List.foldl_cons, List.foldl_nil]
  rw [if_neg (by rw [hsec]; exact Bool.false_ne_true)]
  show applyDiffHandler st repl km emptyTemplateDiff "Resources"
    (some (JSON.obj [("R", metaBody m₁)])) (some (JSON.obj [("R", metaBody m₂)])) = _
  simp only [applyDiffHandler]
  rw [hdke]

theorem diffResource_meta (st : Statics) (repl : Option Replacements) (km : Bool)
    (m₁ m₂ : JSON) (h : deepEqual m₁ m₂ = false) :
    diffResource st repl km "R" (some (metaBody m₁)) (some (metaBody m₂)) =
      ⟨some (metaBody m₁), some (metaBody m₂), [], km, false⟩ := by
  have htype : deepEqualOpt (objLookup "Type" (metaBody m₁)) (objLookup "Type" (metaBody m₂)) =
      true := by
    show deepEqual (.str "T") (.str "T") = true
    exact deepEqual_refl _
  have hmeta : deepEqualOpt (objLookup "Metadata" (metaBody m₁))
      (objLookup "Metadata" (metaBody m₂)) = false := by
    show deepEqual m₁ m₂ = false
    exact h
  cases km
  · simp only [diffResource]
    rw [htype]
    have hrest : sortedUnion (restAttrKeys false (metaBody m₁))
        (restAttrKeys false (metaBody m₂)) = [] := rfl
    rw [hrest]
    rfl
  · simp only [diffResource]
    rw [htype]
    have hrest : sortedUnion (restAttrKeys true (metaBody m₁))
        (restAttrKeys true (metaBody m₂)) = ["Metadata"] := rfl
    rw [hrest]
    show ResourceDifference.mk _ _ _
      ((!deepEqualOpt (objLookup "Metadata" (metaBody m₁)) (objLookup "Metadata" (metaBody m₂))) ||
        List.any [] _) _ = _
    rw [hmeta]
    rfl

theorem stepCopy_meta (st : Statics) (repl : Option Replacements) (m₁ m₂ : JSON)
    (h : deepEqual m₁ m₂ = false) :
    stepCopy st repl (metaTemplate m₁) (metaTemplate m₂) = (metaTemplate m₂, false) := by
  unfold stepCopy willReplaceIds
  rw [calc_meta st repl false m₁ m₂ h, diffResource_meta st repl false m₁ m₂ h]
  rfl

theorem convergedCopy_meta (st : Statics) (repl : Option Replacements) (m₁ m₂ : JSON)
    (h : deepEqual m₁ m₂ = false) :
    convergedCopy st repl (metaTemplate m₁) (metaTemplate m₂) = metaTemplate m₂ := by
  unfold convergedCopy loopFuel
  rw [deepCopy_id]
  show loopGo st repl (metaTemplate m₁)
    (Phi (sortedUnion (resKeys (metaTemplate m₁)) (resKeys (metaTemplate m₂)))
      (metaTemplate m₂) + 1) (metaTemplate m₂) = metaTemplate m₂
  rw [loopGo]
  simp [stepCopy_meta st repl m₁ m₂ h]

/-- Claim C2 as amended: the base diff of diffTemplate retains the Metadata
attribute exactly when NO change set was supplied (keepMetadata true), and
discards it when a change set was supplied (keepMetadata false) — the
opposite of the claim as stated.  Observably: for two templates that differ
only in the Metadata attribute of one resource, the returned resource
difference has impact WILL_UPDATE when no change set is supplied, and
impact NO_CHANGE when one is. -/
theorem C2_keepMetadata (st : Statics) (m₁ m₂ : JSON) (cs : Option ChangeSetData)
    (h : deepEqual m₁ m₂ = false) :
    (collGet (diffTemplate st (metaTemplate m₁) (metaTemplate m₂) cs).resources
      "R").changeImpact =
      match cs with
      | some _ => ResourceImpact.NO_CHANGE
      | none => ResourceImpact.WILL_UPDATE := by
  rw [diffTemplate_eq_patch]
  unfold patchBack convergedDiffOf baseDiffOf
  rw [convergedCopy_meta _ _ m₁ m₂ h, calc_meta _ _ false m₁ m₂ h,
    diffResource_meta _ _ false m₁ m₂ h]
  show (collGet (calculateTemplateDiff st (metaTemplate m₁) (metaTemplate m₂)
    (Option.map findResourceReplacements cs) (baseKeepMetadata cs)).resources
    "R").changeImpact = _
  rw [calc_meta _ _ (baseKeepMetadata cs) m₁ m₂ h,
    diffResource_meta _ _ (baseKeepMetadata cs) m₁ m₂ h]
  cases cs with
  | none => rfl
  | some c => rfl

/-- Witness for C2 at a concrete input: Metadata 1 against Metadata 2 with
no change set gives impact WILL_UPDATE for the resource. -/
theorem C2_witness :
    deepEqual (.num 1) (.num 2) = false ∧
    (collGet (diffTemplate stAlways tmplMold tmplMnew none).resources "R").changeImpact =
      ResourceImpact.WILL_UPDATE :=
  ⟨by decide, C2_keepMetadata stAlways (.num 1) (.num 2) none (by decide)⟩

/-- Counterexample to claim C2 as stated: without a change set the code
passes keepMetadata true, so a Metadata-only change surfaces as
WILL_UPDATE; the keepMetadata choice the claim asserts (false when no
oracle) would make the same call return NO_CHANGE for that resource, so the
diff computed with the claimed flag differs from the one diffTemplate
returns. -/
theorem C2_counterexample :
    (collGet (diffTemplate stAlways tmplMold tmplMnew none).resources "R").changeImpact =
      ResourceImpact.WILL_UPDATE ∧
    (collGet (diffTemplateKeep claimedKeepMetadata stAlways tmplMold tmplMnew none).resources
      "R").changeImpact = ResourceImpact.NO_CHANGE ∧
    diffTemplateKeep claimedKeepMetadata stAlways tmplMold tmplMnew none ≠
      diffTemplate stAlways tmplMold tmplMnew none := by
  refine ⟨by decide, by decide, fun heq => ?_⟩
  have h1 : (collGet (diffTemplate stAlways tmplMold tmplMnew none).resources
      "R").changeImpact = ResourceImpact.WILL_UPDATE := by decide
  rw [← heq] at h1
  have h2 : (collGet (diffTemplateKeep claimedKeepMetadata stAlways tmplMold tmplMnew
      none).resources "R").changeImpact = ResourceImpact.NO_CHANGE := by decide
  rw [h1] at h2
  exact absurd h2 (by decide)

/-- Counterexample to claim C1 as stated: in the C1 example, resource B of
the propagated (converged) diff has replacement impact WILL_REPLACE and its
property Source carries impact WILL_REPLACE, while the original base diff
records no impact for Source at all, so the Source impact differs between
the two diffs; yet the diff diffTemplate returns does not copy the Source
property difference, because the resource level impacts of B coincide. -/
theorem C1_counterexample :
    isReplacementB ((collGet (convergedDiffOf stAlways tmplAold tmplAnew none).resources
      "B").changeImpact) = true ∧
    (alget (collGet (convergedDiffOf stAlways tmplAold tmplAnew none).resources
      "B").propertyDiffs "Source").map PropertyDifference.changeImpact =
      some ResourceImpact.WILL_REPLACE ∧
    (alget (collGet (baseDiffOf stAlways tmplAold tmplAnew none).resources
      "B").propertyDiffs "Source").isSome = false ∧
    (alget (collGet (diffTemplate stAlways tmplAold tmplAnew none).resources
      "B").propertyDiffs "Source").isSome = false := by
  refine ⟨by decide, by decide, by decide, by decide⟩

theorem filter_length_mono (S : List String) (p q : String → Bool)
    (himp : ∀ t, q t = true → p t = true) :
    (S.filter q).length ≤ (S.filter p).length := by
  induction S with
  | nil => exact Nat.le_refl 0
  | cons a S ih =>
    rw [List.filter_cons, List.filter_cons]
    by_cases hq : q a = true
    · rw [if_pos hq, if_pos (himp a hq)]
      rw [List.length_cons, List.length_cons]
      exact Nat.succ_le_succ ih
    · rw [if_neg hq]
      by_cases hp : p a = true
      · rw [if_pos hp]
        exact Nat.le_succ_of_le ih
      · rw [if_neg hp]
        exact ih

theorem filter_length_lt (S : List String) (p q : String → Bool)
    (himp : ∀ t, q t = true → p t = true) (x : String) (hx : x ∈ S)
    (hpx : p x = true) (hqx : q x = false) :
    (S.filter q).length < (S.filter p).length := by
  induction S with
  | nil => cases hx
  | cons a S ih =>
    rw [List.filter_cons, List.filter_cons]
    rcases List.mem_cons.1 hx with rfl | hxS
    · rw [if_pos hpx, if_neg (by rw [hqx]; exact Bool.false_ne_true)]
      exact Nat.lt_succ_of_le (filter_length_mono S p q himp)
    · by_cases hq : q a = true
      · rw [if_pos hq, if_pos (himp a hq)]
        rw [List.length_cons, List.length_cons]
        exact Nat.succ_lt_succ (ih hxS)
      · rw [if_neg hq]
        by_cases hp : p a = true
        · rw [if_pos hp]
          exact Nat.lt_succ_of_lt (ih hxS)
        · rw [if_neg hp]
          exact ih hxS

theorem string_length_append (a b : String) : (a ++ b).length = a.length + b.length := by
  show (a ++ b).data.length = a.data.length + b.data.length
  rw [String.data_append, List.length_append]

theorem countGE_append_lt (S : List String) (l suffix : String) (hl : l ∈ S)
    (hs : suffix.length ≠ 0) : countGE S (l ++ suffix) < countGE S l := by
  unfold countGE
  apply filter_length_lt S (fun t => decide (l.length ≤ t.length))
    (fun t => decide ((l ++ suffix).length ≤ t.length)) ?_ l hl ?_ ?_
  · intro t ht
    simp only [decide_eq_true_eq] at ht ⊢
    have h2 : l.length ≤ (l ++ suffix).length := by
      rw [string_length_append]; omega
    exact le_trans h2 ht
  · simp
  · simp only [decide_eq_false_iff_not]
    rw [string_length_append]
    omega

theorem unchanged_pair_prop (S : List String) (t : JSON) (r : JSON × Bool)
    (e : r = (t, false)) :
    (r.2 = false → r.1 = t) ∧ (r.2 = true → Phi S r.1 < Phi S t) := by
  subst e
  exact ⟨fun _ => rfl, fun h => Bool.noConfusion h⟩

mutual
theorem propRec_phi (S : List String) (l : String) (hl : l ∈ S) : ∀ t : JSON,
    ((propRec l t).2 = false → (propRec l t).1 = t) ∧
    ((propRec l t).2 = true → Phi S (propRec l t).1 < Phi S t)
  | .null => ⟨fun _ => rfl, fun h => Bool.noConfusion h⟩
  | .bool b => ⟨fun _ => rfl, fun h => Bool.noConfusion h⟩
  | .num n => ⟨fun _ => rfl, fun h => Bool.noConfusion h⟩
  | .str s => ⟨fun _ => rfl, fun h => Bool.noConfusion h⟩
  | .arr xs => by
    have hx := propRecList_phi S l hl xs
    refine ⟨fun h => ?_, fun h => ?_⟩
    · show JSON.arr (propRecList l xs).1 = JSON.arr xs
      rw [hx.1 h]
    · show PhiList S (propRecList l xs).1 < PhiList S xs
      exact hx.2 h
  | .obj [(k, v)] => by
    by_cases hk : k = "Ref"
    · subst hk
      cases v with
      | str s =>
        by_cases hs : s = l
        · have e : propRec l (.obj [("Ref", .str s)]) =
              (.obj [("Ref", .str (l ++ " (replaced)"))], true) := by
            simp [propRec, hs]
          refine ⟨fun h => ?_, fun _ => ?_⟩
          · rw [e] at h; simp at h
          · rw [e]
            have hlt := countGE_append_lt S l " (replaced)" hl (by decide)
            show countGE S (l ++ " (replaced)") + 0 < Phi S (.obj [("Ref", .str s)])
            rw [hs]
            show countGE S (l ++ " (replaced)") + 0 < countGE S l + 0
            omega
        · exact unchanged_pair_prop S _ _ (by simp [propRec, hs])
      | null => exact unchanged_pair_prop S _ _ (by simp [propRec])
      | bool b => exact unchanged_pair_prop S _ _ (by simp [propRec])
      | num n => exact unchanged_pair_prop S _ _ (by simp [propRec])
      | arr xs => exact unchanged_pair_prop S _ _ (by simp [propRec])
      | obj kvs => exact unchanged_pair_prop S _ _ (by simp [propRec])
    · by_cases hf : startsWithB k "Fn::" = true
      · cases v with
        | arr xs =>
          cases xs with
          | nil => exact unchanged_pair_prop S _ _ (by simp [propRec, hk, hf])
          | cons x rest =>
            cases x with
            | str s =>
              by_cases hs : s = l
              · have e : propRec l (.obj [(k, .arr (.str s :: rest))]) =
                    (.obj [(k, .arr (.str (l ++ "(replaced)") :: rest))], true) := by
                  simp [propRec, hk, hf, hs]
                refine ⟨fun h => ?_, fun _ => ?_⟩
                · rw [e] at h; simp at h
                · rw [e]
                  have hlt := countGE_append_lt S l "(replaced)" hl (by decide)
                  show countGE S (l ++ "(replaced)") + PhiList S rest + 0 <
                    Phi S (.obj [(k, .arr (.str s :: rest))])
                  rw [hs]
                  show countGE S (l ++ "(replaced)") + PhiList S rest + 0 <
                    countGE S l + PhiList S rest + 0
                  omega
              · exact unchanged_pair_prop S _ _ (by simp [propRec, hk, hf, hs])
            | null => exact unchanged_pair_prop S _ _ (by simp [propRec, hk, hf])
            | bool b => exact unchanged_pair_prop S _ _ (by simp [propRec, hk, hf])
            | num n => exact unchanged_pair_prop S _ _ (by simp [propRec, hk, hf])
            | arr ys => exact unchanged_pair_prop S _ _ (by simp [propRec, hk, hf])
            | obj kvs => exact unchanged_pair_prop S _ _ (by simp [propRec, hk, hf])
        | null => exact unchanged_pair_prop S _ _ (by simp [propRec, hk, hf])
        | bool b => exact unchanged_pair_prop S _ _ (by simp [propRec, hk, hf])
        | num n => exact unchanged_pair_prop S _ _ (by simp [propRec, hk, hf])
        | str s => exact unchanged_pair_prop S _ _ (by simp [propRec, hk, hf])
        | obj kvs => exact unchanged_pair_prop S _ _ (by simp [propRec, hk, hf])
      · have hv := propRec_phi S l hl v
        have e : propRec l (.obj [(k, v)]) =
            (.obj [(k, (propRec l v).1)], (propRec l v).2) := by
          simp [propRec, hk, hf]
        refine ⟨fun h => ?_, fun h => ?_⟩
        · rw [e] at h ⊢
          show JSON.obj [(k, (propRec l v).1)] = JSON.obj [(k, v)]
          rw [hv.1 h]
        · rw [e] at h ⊢
          show Phi S (propRec l v).1 + 0 < Phi S v + 0
          have := hv.2 h
          omega
  | .obj [] => ⟨fun _ => rfl, fun h => Bool.noConfusion h⟩
  | .obj (p :: q :: rest) => by
    have hkv := propRecKVs_phi S l hl (p :: q :: rest)
    refine ⟨fun h => ?_, fun h => ?_⟩
    · show JSON.obj (propRecKVs l (p :: q :: rest)).1 = JSON.obj (p :: q :: rest)
      rw [hkv.1 h]
    · show PhiKVs S (propRecKVs l (p :: q :: rest)).1 < PhiKVs S (p :: q :: rest)
      exact hkv.2 h

theorem propRecList_phi (S : List String) (l : String) (hl : l ∈ S) : ∀ xs : List JSON,
    ((propRecList l xs).2 = false → (propRecList l xs).1 = xs) ∧
    ((propRecList l xs).2 = true → PhiList S (propRecList l xs).1 < PhiList S xs)
  | [] => ⟨fun _ => rfl, fun h => Bool.noConfusion h⟩
  | x :: xs => by
    have h1 := propRec_phi S l hl x
    have h2 := propRecList_phi S l hl xs
    refine ⟨fun h => ?_, fun h => ?_⟩
    · have h' : ((propRec l x).2 || (propRecList l xs).2) = false := h
      rw [Bool.or_eq_false_iff] at h'
      show (propRec l x).1 :: (propRecList l xs).1 = x :: xs
      rw [h1.1 h'.1, h2.1 h'.2]
    · have h' : ((propRec l x).2 || (propRecList l xs).2) = true := h
      show Phi S (propRec l x).1 + PhiList S (propRecList l xs).1 < Phi S x + PhiList S xs
      cases ha : (propRec l x).2 with
      | false =>
        rw [h1.1 ha]
        rw [ha, Bool.false_or] at h'
        have := h2.2 h'
        omega
      | true =>
        have hA := h1.2 ha
        cases hb : (propRecList l xs).2 with
        | false => rw [h2.1 hb]; omega
        | true => have hB := h2.2 hb; omega

theorem propRecKVs_phi (S : List String) (l : String) (hl : l ∈ S) :
    ∀ kvs : List (String × JSON),
    ((propRecKVs l kvs).2 = false → (propRecKVs l kvs).1 = kvs) ∧
    ((propRecKVs l kvs).2 = true → PhiKVs S (propRecKVs l kvs).1 < PhiKVs S kvs)
  | [] => ⟨fun _ => rfl, fun h => Bool.noConfusion h⟩
  | (k, v) :: kvs => by
    have h1 := propRec_phi S l hl v
    have h2 := propRecKVs_phi S l hl kvs
    refine ⟨fun h => ?_, fun h => ?_⟩
    · have h' : ((propRec l v).2 || (propRecKVs l kvs).2) = false := h
      rw [Bool.or_eq_false_iff] at h'
      show (k, (propRec l v).1) :: (propRecKVs l kvs).1 = (k, v) :: kvs
      rw [h1.1 h'.1, h2.1 h'.2]
    · have h' : ((propRec l v).2 || (propRecKVs l kvs).2) = true := h
      show Phi S (propRec l v).1 + PhiKVs S (propRecKVs l kvs).1 < Phi S v + PhiKVs S kvs
      cases ha : (propRec l v).2 with
      | false =>
        rw [h1.1 ha]
        rw [ha, Bool.false_or] at h'
        have := h2.2 h'
        omega
      | true =>
        have hA := h1.2 ha
        cases hb : (propRecKVs l kvs).2 with
        | false => rw [h2.1 hb]; omega
        | true => have hB := h2.2 hb; omega
end

theorem propRec_ref_other (l : String) (v : JSON) (hv : ∀ s, v ≠ .str s) :
    propRec l (.obj [("Ref", v)]) = (.obj [("Ref", v)], false) := by
  cases v with
  | str s => exact absurd rfl (hv s)
  | null => simp [propRec]
  | bool b => simp [propRec]
  | num n => simp [propRec]
  | arr xs => simp [propRec]
  | obj kvs => simp [propRec]

mutual
theorem propRec_blank (l : String) : ∀ t : JSON,
    blankStrings (propRec l t).1 = blankStrings t
  | .null => rfl
  | .bool b => rfl
  | .num n => rfl
  | .str s => rfl
  | .arr xs => congrArg JSON.arr (propRecList_blank l xs)
  | .obj [(k, v)] => by
    by_cases hk : k = "Ref"
    · subst hk
      cases v with
      | str s =>
        by_cases hs : s = l
        · rw [show propRec l (.obj [("Ref", .str s)]) =
            (.obj [("Ref", .str (l ++ " (replaced)"))], true) from by simp [propRec, hs]]
          rfl
        · rw [show propRec l (.obj [("Ref", .str s)]) = (.obj [("Ref", .str s)], false) from by
            simp [propRec, hs]]
      | null => rw [propRec_ref_other l .null (by intro s h; cases h)]
      | bool b => rw [propRec_ref_other l (.bool b) (by intro s h; cases h)]
      | num n => rw [propRec_ref_other l (.num n) (by intro s h; cases h)]
      | arr xs => rw [propRec_ref_other l (.arr xs) (by intro s h; cases h)]
      | obj kvs => rw [propRec_ref_other l (.obj kvs) (by intro s h; cases h)]
    · by_cases hf : startsWithB k "Fn::" = true
      · cases v with
        | arr xs =>
          cases xs with
          | nil => rw [show propRec l (.obj [(k, .arr [])]) = (.obj [(k, .arr [])], false)
              from by simp [propRec, hk, hf]]
          | cons x rest =>
            cases x with
            | str s =>
              by_cases hs : s = l
              · rw [show propRec l (.obj [(k, .arr (.str s :: rest))]) =
                  (.obj [(k, .arr (.str (l ++ "(replaced)") :: rest))], true) from by
                    simp [propRec, hk, hf, hs]]
                rfl
              · rw [show propRec l (.obj [(k, .arr (.str s :: rest))]) =
                  (.obj [(k, .arr (.str s :: rest))], false) from by simp [propRec, hk, hf, hs]]
            | null => rw [show propRec l (.obj [(k, .arr (.null :: rest))]) =
                (.obj [(k, .arr (.null :: rest))], false) from by simp [propRec, hk, hf]]
            | bool b => rw [show propRec l (.obj [(k, .arr (.bool b :: rest))]) =
                (.obj [(k, .arr (.bool b :: rest))], false) from by simp [propRec, hk, hf]]
            | num n => rw [show propRec l (.obj [(k, .arr (.num n :: rest))]) =
                (.obj [(k, .arr (.num n :: rest))], false) from by simp [propRec, hk, hf]]
            | arr ys => rw [show propRec l (.obj [(k, .arr (.arr ys :: rest))]) =
                (.obj [(k, .arr (.arr ys :: rest))], false) from by simp [propRec, hk, hf]]
            | obj kvs => rw [show propRec l (.obj [(k, .arr (.obj kvs :: rest))]) =
                (.obj [(k, .arr (.obj kvs :: rest))], false) from by simp [propRec, hk, hf]]
        | null => rw [show propRec l (.obj [(k, .null)]) = (.obj [(k, .null)], false)
            from by simp [propRec, hk, hf]]
        | bool b => rw [show propRec l (.obj [(k, .bool b)]) = (.obj [(k, .bool b)], false)
            from by simp [propRec, hk, hf]]
        | num n => rw [show propRec l (.obj [(k, .num n)]) = (.obj [(k, .num n)], false)
            from by simp [propRec, hk, hf]]
        | str s => rw [show propRec l (.obj [(k, .str s)]) = (.obj [(k, .str s)], false)
            from by simp [propRec, hk, hf]]
        | obj kvs => rw [show propRec l (.obj [(k, .obj kvs)]) = (.obj [(k, .obj kvs)], false)
            from by simp [propRec, hk, hf]]
      · rw [show propRec l (.obj [(k, v)]) =
          (.obj [(k, (propRec l v).1)], (propRec l v).2) from by simp [propRec, hk, hf]]
        show JSON.obj [(k, blankStrings (propRec l v).1)] = JSON.obj [(k, blankStrings v)]
        rw [propRec_blank l v]
  | .obj [] => rfl
  | .obj (p :: q :: rest) => congrArg JSON.obj (propRecKVs_blank l (p :: q :: rest))

theorem propRecList_blank (l : String) : ∀ xs : List JSON,
    blankList (propRecList l xs).1 = blankList xs
  | [] => rfl
  | x :: xs => by
    show blankStrings (propRec l x).1 :: blankList (propRecList l xs).1 = _
    rw [propRec_blank l x, propRecList_blank l xs]
    rfl

theorem propRecKVs_blank (l : String) : ∀ kvs : List (String × JSON),
    blankKVs (propRecKVs l kvs).1 = blankKVs kvs
  | [] => rfl
  | (k, v) :: kvs => by
    show (k, blankStrings (propRec l v).1) :: blankKVs (propRecKVs l kvs).1 = _
    rw [propRec_blank l v, propRecKVs_blank l kvs]
    rfl
end

mutual
theorem propRec_idem (l : String) : ∀ t : JSON,
    propRec l (propRec l t).1 = ((propRec l t).1, false)
  | .null => rfl
  | .bool b => rfl
  | .num n => rfl
  | .str s => rfl
  | .arr xs => by
    show propRec l (.arr (propRecList l xs).1) = _
    rw [show propRec l (.arr (propRecList l xs).1) =
      (.arr (propRecList l (propRecList l xs).1).1,
       (propRecList l (propRecList l xs).1).2) from rfl,
      propRecList_idem l xs]
    rfl
  | .obj [(k, v)] => by
    by_cases hk : k = "Ref"
    · subst hk
      cases v with
      | str s =>
        by_cases hs : s = l
        · have hm : l ++ " (replaced)" ≠ l :=
            stringAppend_ne_self l (show (" (replaced)" : String).data ≠ [] from by decide)
          rw [show propRec l (.obj [("Ref", .str s)]) =
            (.obj [("Ref", .str (l ++ " (replaced)"))], true) from by simp [propRec, hs]]
          show propRec l (.obj [("Ref", .str (l ++ " (replaced)"))]) = _
          simp [propRec, hm]
        · rw [show propRec l (.obj [("Ref", .str s)]) = (.obj [("Ref", .str s)], false) from by
            simp [propRec, hs]]
          show propRec l (.obj [("Ref", .str s)]) = _
          simp [propRec, hs]
      | null =>
        rw [propRec_ref_other l .null (by intro s h; cases h)]
        exact propRec_ref_other l .null (by intro s h; cases h)
      | bool b =>
        rw [propRec_ref_other l (.bool b) (by intro s h; cases h)]
        exact propRec_ref_other l (.bool b) (by intro s h; cases h)
      | num n =>
        rw [propRec_ref_other l (.num n) (by intro s h; cases h)]
        exact propRec_ref_other l (.num n) (by intro s h; cases h)
      | arr xs =>
        rw [propRec_ref_other l (.arr xs) (by intro s h; cases h)]
        exact propRec_ref_other l (.arr xs) (by intro s h; cases h)
      | obj kvs =>
        rw [propRec_ref_other l (.obj kvs) (by intro s h; cases h)]
        exact propRec_ref_other l (.obj kvs) (by intro s h; cases h)
    · by_cases hf : startsWithB k "Fn::" = true
      · cases v with
        | arr xs =>
          cases xs with
          | nil =>
            rw [show propRec l (.obj [(k, .arr [])]) = (.obj [(k, .arr [])], false)
              from by simp [propRec, hk, hf]]
            show propRec l (.obj [(k, .arr [])]) = _
            simp [propRec, hk, hf]
          | cons x rest =>
            cases x with
            | str s =>
              by_cases hs : s = l
              · have hm : l ++ "(replaced)" ≠ l :=
                  stringAppend_ne_self l (show ("(replaced)" : String).data ≠ [] from by decide)
                rw [show propRec l (.obj [(k, .arr (.str s :: rest))]) =
                    (.obj [(k, .arr (.str (l ++ "(replaced)") :: rest))], true) from by
                      simp [propRec, hk, hf, hs]]
                show propRec l (.obj [(k, .arr (.str (l ++ "(replaced)") :: rest))]) = _
                simp [propRec, hk, hf, hm]
              · rw [show propRec l (.obj [(k, .arr (.str s :: rest))]) =
                    (.obj [(k, .arr (.str s :: rest))], false) from by
                      simp [propRec, hk, hf, hs]]
                show propRec l (.obj [(k, .arr (.str s :: rest))]) = _
                simp [propRec, hk, hf, hs]
            | null =>
              rw [show propRec l (.obj [(k, .arr (.null :: rest))]) =
                  (.obj [(k, .arr (.null :: rest))], false) from by simp [propRec, hk, hf]]
              show propRec l (.obj [(k, .arr (.null :: rest))]) = _
              simp [propRec, hk, hf]
            | bool b =>
              rw [show propRec l (.obj [(k, .arr (.bool b :: rest))]) =
                  (.obj [(k, .arr (.bool b :: rest))], false) from by simp [propRec, hk, hf]]
              show propRec l (.obj [(k, .arr (.bool b :: rest))]) = _
              simp [propRec, hk, hf]
            | num n =>
              rw [show propRec l (.obj [(k, .arr (.num n :: rest))]) =
                  (.obj [(k, .arr (.num n :: rest))], false) from by simp [propRec, hk, hf]]
              show propRec l (.obj [(k, .arr (.num n :: rest))]) = _
              simp [propRec, hk, hf]
            | arr ys =>
              rw [show propRec l (.obj [(k, .arr (.arr ys :: rest))]) =
                  (.obj [(k, .arr (.arr ys :: rest))], false) from by simp [propRec, hk, hf]]
              show propRec l (.obj [(k, .arr (.arr ys :: rest))]) = _
              simp [propRec, hk, hf]
            | obj kvs =>
              rw [show propRec l (.obj [(k, .arr (.obj kvs :: rest))]) =
                  (.obj [(k, .arr (.obj kvs :: rest))], false) from by simp [propRec, hk, hf]]
              show propRec l (.obj [(k, .arr (.obj kvs :: rest))]) = _
              simp [propRec, hk, hf]
        | null =>
          rw [show propRec l (.obj [(k, .null)]) = (.obj [(k, .null)], false)
              from by simp [propRec, hk, hf]]
          show propRec l (.obj [(k, .null)]) = _
          simp [propRec, hk, hf]
        | bool b =>
          rw [show propRec l (.obj [(k, .bool b)]) = (.obj [(k, .bool b)], false)
              from by simp [propRec, hk, hf]]
          show propRec l (.obj [(k, .bool b)]) = _
          simp [propRec, hk, hf]
        | num n =>
          rw [show propRec l (.obj [(k, .num n)]) = (.obj [(k, .num n)], false)
              from by simp [propRec, hk, hf]]
          show propRec l (.obj [(k, .num n)]) = _
          simp [propRec, hk, hf]
        | str s =>
          rw [show propRec l (.obj [(k, .str s)]) = (.obj [(k, .str s)], false)
              from by simp [propRec, hk, hf]]
          show propRec l (.obj [(k, .str s)]) = _
          simp [propRec, hk, hf]
        | obj kvs =>
          rw [show propRec l (.obj [(k, .obj kvs)]) = (.obj [(k, .obj kvs)], false)
              from by simp [propRec, hk, hf]]
          show propRec l (.obj [(k, .obj kvs)]) = _
          simp [propRec, hk, hf]
      · rw [show propRec l (.obj [(k, v)]) =
          (.obj [(k, (propRec l v).1)], (propRec l v).2) from by simp [propRec, hk, hf]]
        show propRec l (.obj [(k, (propRec l v).1)]) = (.obj [(k, (propRec l v).1)], false)
        rw [show propRec l (.obj [(k, (propRec l v).1)]) =
            (.obj [(k, (propRec l (propRec l v).1).1)], (propRec l (propRec l v).1).2) from by
            simp [propRec, hk, hf],
          propRec_idem l v]
  | .obj [] => rfl
  | .obj ((k1, v1) :: (k2, v2) :: rest) => by
    have h := propRecKVs_idem l ((k1, v1) :: (k2, v2) :: rest)
    show (JSON.obj (propRecKVs l (propRecKVs l ((k1, v1) :: (k2, v2) :: rest)).1).1,
          (propRecKVs l (propRecKVs l ((k1, v1) :: (k2, v2) :: rest)).1).2) =
        (JSON.obj (propRecKVs l ((k1, v1) :: (k2, v2) :: rest)).1, false)
    rw [h]

theorem propRecList_idem (l : String) : ∀ xs : List JSON,
    propRecList l (propRecList l xs).1 = ((propRecList l xs).1, false)
  | [] => rfl
  | x :: xs => by
    show propRecList l ((propRec l x).1 :: (propRecList l xs).1) = _
    rw [show propRecList l ((propRec l x).1 :: (propRecList l xs).1) =
      ((propRec l (propRec l x).1).1 :: (propRecList l (propRecList l xs).1).1,
       (propRec l (propRec l x).1).2 || (propRecList l (propRecList l xs).1).2) from rfl,
      propRec_idem l x, propRecList_idem l xs]
    rfl

theorem propRecKVs_idem (l : String) : ∀ kvs : List (String × JSON),
    propRecKVs l (propRecKVs l kvs).1 = ((propRecKVs l kvs).1, false)
  | [] => rfl
  | (k, v) :: kvs => by
    show propRecKVs l ((k, (propRec l v).1) :: (propRecKVs l kvs).1) = _
    rw [show propRecKVs l ((k, (propRec l v).1) :: (propRecKVs l kvs).1) =
      ((k, (propRec l (propRec l v).1).1) :: (propRecKVs l (propRecKVs l kvs).1).1,
       (propRec l (propRec l v).1).2 || (propRecKVs l (propRecKVs l kvs).1).2) from rfl,
      propRec_idem l v, propRecKVs_idem l kvs]
    rfl
end

theorem blankKVs_keys : ∀ (kvs lws : List (String × JSON)),
    blankKVs kvs = blankKVs lws → keysOf kvs = keysOf lws
  | [], [] => fun _ => rfl
  | [], q :: lws => fun h => by
    obtain ⟨k2, w⟩ := q
    exact absurd h (by simp [blankKVs])
  | p :: kvs, [] => fun h => by
    obtain ⟨k, v⟩ := p
    exact absurd h (by simp [blankKVs])
  | p :: kvs, q :: lws => fun h => by
    obtain ⟨k, v⟩ := p
    obtain ⟨k2, w⟩ := q
    simp only [blankKVs, List.cons.injEq, Prod.mk.injEq] at h
    rw [keysOf_cons, keysOf_cons, h.1.1, blankKVs_keys kvs lws h.2]

theorem blankKVs_alget : ∀ (kvs lws : List (String × JSON)),
    blankKVs kvs = blankKVs lws → ∀ key,
    (alget kvs key).map blankStrings = (alget lws key).map blankStrings
  | [], [] => fun _ _ => rfl
  | [], q :: lws => fun h _ => by
    obtain ⟨k2, w⟩ := q
    exact absurd h (by simp [blankKVs])
  | p :: kvs, [] => fun h _ => by
    obtain ⟨k, v⟩ := p
    exact absurd h (by simp [blankKVs])
  | p :: kvs, q :: lws => fun h key => by
    obtain ⟨k, v⟩ := p
    obtain ⟨k2, w⟩ := q
    simp only [blankKVs, List.cons.injEq, Prod.mk.injEq] at h
    rw [alget_cons, alget_cons, ← h.1.1]
    by_cases hid : k = key
    · rw [if_pos hid, if_pos hid]
      simp only [Option.map_some']
      rw [h.1.2]
    · rw [if_neg hid, if_neg hid]
      exact blankKVs_alget kvs lws h.2 key

theorem blankList_length : ∀ (xs ys : List JSON),
    blankList xs = blankList ys → xs.length = ys.length
  | [], [] => fun _ => rfl
  | [], y :: ys => fun h => absurd h (by simp [blankList])
  | x :: xs, [] => fun h => absurd h (by simp [blankList])
  | x :: xs, y :: ys => fun h => by
    simp only [blankList, List.cons.injEq] at h
    rw [List.length_cons, List.length_cons, blankList_length xs ys h.2]

theorem enum_keys_congr : ∀ (i : Nat) (xs ys : List JSON), xs.length = ys.length →
    keysOf ((List.enumFrom i xs).map (fun p => (toString p.1, p.2))) =
      keysOf ((List.enumFrom i ys).map (fun p => (toString p.1, p.2)))
  | _, [], [] => fun _ => rfl
  | _, [], y :: ys => fun h => by simp at h
  | _, x :: xs, [] => fun h => by simp at h
  | i, x :: xs, y :: ys => fun h => by
    simp only [List.length_cons] at h
    show (toString i) :: keysOf ((List.enumFrom (i+1) xs).map (fun p => (toString p.1, p.2))) =
      (toString i) :: keysOf ((List.enumFrom (i+1) ys).map (fun p => (toString p.1, p.2)))
    rw [enum_keys_congr (i+1) xs ys (by omega)]

theorem blank_enum_alget : ∀ (i : Nat) (xs ys : List JSON),
    blankList xs = blankList ys → ∀ key,
    (alget ((List.enumFrom i xs).map (fun p => (toString p.1, p.2))) key).map blankStrings =
      (alget ((List.enumFrom i ys).map (fun p => (toString p.1, p.2))) key).map blankStrings
  | _, [], [] => fun _ _ => rfl
  | _, [], y :: ys => fun h _ => absurd h (by simp [blankList])
  | _, x :: xs, [] => fun h _ => absurd h (by simp [blankList])
  | i, x :: xs, y :: ys => fun h key => by
    simp only [blankList, List.cons.injEq] at h
    show (alget ((toString i, x) ::
        (List.enumFrom (i+1) xs).map (fun p => (toString p.1, p.2))) key).map blankStrings =
      (alget ((toString i, y) ::
        (List.enumFrom (i+1) ys).map (fun p => (toString p.1, p.2))) key).map blankStrings
    rw [alget_cons, alget_cons]
    by_cases hid : toString i = key
    · rw [if_pos hid, if_pos hid]
      simp only [Option.map_some']
      rw [h.1]
    · rw [if_neg hid, if_neg hid]
      exact blank_enum_alget (i+1) xs ys h.2 key

theorem blank_keys1 (a b : JSON) (h : blankStrings a = blankStrings b) :
    keysOf (objEntriesOpt (some a)) = keysOf (objEntriesOpt (some b)) := by
  cases a <;> cases b <;> (try rfl) <;>
    simp only [blankStrings, JSON.arr.injEq, JSON.obj.injEq] at h <;>
    first
      | exact enum_keys_congr 0 _ _ (blankList_length _ _ h)
      | exact blankKVs_keys _ _ h
      | exact absurd h (by simp)

theorem blank_alget1 (a b : JSON) (h : blankStrings a = blankStrings b) (key : String) :
    (alget (objEntriesOpt (some a)) key).map blankStrings =
      (alget (objEntriesOpt (some b)) key).map blankStrings := by
  cases a <;> cases b <;> (try rfl) <;>
    simp only [blankStrings, JSON.arr.injEq, JSON.obj.injEq] at h <;>
    first
      | exact blank_enum_alget 0 _ _ h key
      | exact blankKVs_alget _ _ h key
      | exact absurd h (by simp)

theorem resKeys_blank {a b : JSON} (h : blankStrings a = blankStrings b) :
    resKeys a = resKeys b := by
  unfold resKeys
  have h1 := blank_alget1 a b h "Resources"
  cases ha : alget (objEntriesOpt (some a)) "Resources" with
  | none =>
    cases hb : alget (objEntriesOpt (some b)) "Resources" with
    | none => rfl
    | some w => rw [ha, hb] at h1; simp at h1
  | some v =>
    cases hb : alget (objEntriesOpt (some b)) "Resources" with
    | none => rw [ha, hb] at h1; simp at h1
    | some w =>
      rw [ha, hb] at h1
      simp only [Option.map_some', Option.some.injEq] at h1
      exact blank_keys1 v w h1

theorem mem_sortedUnion {id : String} {a b : List String} :
    id ∈ sortedUnion a b ↔ id ∈ a ∨ id ∈ b := by
  unfold sortedUnion sortStrings
  rw [(List.perm_insertionSort strLe _).mem_iff, List.mem_dedup, List.mem_append]

theorem calc_resources_sub (st : Statics) (c n : JSON) (repl : Option Replacements)
    (km : Bool) : ∀ id ∈ keysOf (calculateTemplateDiff st c n repl km).resources,
      id ∈ resKeys c ∨ id ∈ resKeys n := by
  suffices h : ∀ (ks : List String) (acc : TemplateDiff),
      (∀ id ∈ keysOf acc.resources, id ∈ resKeys c ∨ id ∈ resKeys n) →
      ∀ id ∈ keysOf ((ks.foldl (fun acc key =>
        let o := alget (objEntriesOpt (some c)) key
        let nn := alget (objEntriesOpt (some n)) key
        if deepEqualOpt o nn then acc else applyDiffHandler st repl km acc key o nn)
        acc)).resources, id ∈ resKeys c ∨ id ∈ resKeys n by
    intro id hid
    exact h (processedKeys c n) emptyTemplateDiff (by simp [emptyTemplateDiff, keysOf]) id hid
  intro ks
  induction ks with
  | nil => exact fun acc h => h
  | cons k ks ih =>
    intro acc hacc
    simp only [List.foldl_cons]
    apply ih
    by_cases hq : deepEqualOpt (alget (objEntriesOpt (some c)) k)
        (alget (objEntriesOpt (some n)) k) = true
    · simpa [hq] using hacc
    · intro id hid
      simp only [hq, Bool.false_eq_true, if_false] at hid
      rw [applyDiffHandler_resources] at hid
      by_cases hr : k = "Resources"
      · rw [if_pos hr] at hid
        subst hr
        rw [keysOf_diffKeyedEntities] at hid
        have hid2 := (List.mem_filter.1 hid).1
        exact mem_sortedUnion.1 hid2
      · rw [if_neg hr] at hid
        exact hacc id hid

theorem stepFold_phi (S : List String) : ∀ (ids : List String), (∀ id ∈ ids, id ∈ S) →
    ∀ (copy : JSON) (flag : Bool),
    Phi S (stepFold ids (copy, flag)).1 ≤ Phi S copy ∧
    ((stepFold ids (copy, flag)).2 = false → (stepFold ids (copy, flag)).1 = copy ∧
      flag = false) ∧
    (flag = false → (stepFold ids (copy, flag)).2 = true →
      Phi S (stepFold ids (copy, flag)).1 < Phi S copy)
  | [] => fun _ copy flag =>
    ⟨le_refl _, fun h => ⟨rfl, h⟩, fun hf ht => by rw [hf] at ht; exact Bool.noConfusion ht⟩
  | l :: ids => fun hids copy flag => by
    have hl : l ∈ S := hids l (List.mem_cons_self l ids)
    have hre := propRec_phi S l hl copy
    have estep : stepFold (l :: ids) (copy, flag) =
        stepFold ids ((propRec l copy).1, flag || (propRec l copy).2) := rfl
    cases ha : (propRec l copy).2 with
    | false =>
      have hcu : (propRec l copy).1 = copy := hre.1 ha
      have ih := stepFold_phi S ids (fun id hid => hids id (List.mem_cons_of_mem l hid))
        copy flag
      rw [estep, ha, hcu, Bool.or_false]
      exact ih
    | true =>
      have hlt : Phi S (propRec l copy).1 < Phi S copy := hre.2 ha
      have ih := stepFold_phi S ids (fun id hid => hids id (List.mem_cons_of_mem l hid))
        (propRec l copy).1 true
      rw [estep, ha, Bool.or_true]
      refine ⟨le_trans ih.1 (le_of_lt hlt), ?_, ?_⟩
      · intro h
        exact Bool.noConfusion (ih.2.1 h).2
      · intro hf ht
        exact lt_of_le_of_lt ih.1 hlt

theorem stepFold_blank : ∀ (ids : List String) (copy : JSON) (flag : Bool),
    blankStrings (stepFold ids (copy, flag)).1 = blankStrings copy
  | [] => fun _ _ => rfl
  | l :: ids => fun copy flag => by
    have e : stepFold (l :: ids) (copy, flag) =
        stepFold ids ((propRec l copy).1, flag || (propRec l copy).2) := rfl
    rw [e, stepFold_blank ids _ _, propRec_blank]

theorem willReplaceIds_sub (st : Statics) (repl : Option Replacements) (c copy : JSON) :
    ∀ id ∈ willReplaceIds st repl c copy, id ∈ resKeys c ∨ id ∈ resKeys copy := by
  intro id hid
  unfold willReplaceIds at hid
  have hid2 : id ∈ keysOf (calculateTemplateDiff st c copy repl false).resources :=
    ((List.filter_sublist _).map Prod.fst).subset hid
  exact calc_resources_sub st c copy repl false id hid2

theorem stepCopy_props (st : Statics) (repl : Option Replacements) (c : JSON)
    (S : List String) (copy : JSON)
    (hids : ∀ id ∈ willReplaceIds st repl c copy, id ∈ S) :
    ((stepCopy st repl c copy).2 = false → (stepCopy st repl c copy).1 = copy) ∧
    ((stepCopy st repl c copy).2 = true → Phi S (stepCopy st repl c copy).1 < Phi S copy) := by
  have h := stepFold_phi S (willReplaceIds st repl c copy) hids copy false
  exact ⟨fun hf => (h.2.1 hf).1, fun ht => h.2.2 rfl ht⟩

theorem loop_term (st : Statics) (repl : Option Replacements) (c copy₀ : JSON) :
    ∀ (fuel : Nat) (copy : JSON),
    Phi (sortedUnion (resKeys c) (resKeys copy₀)) copy < fuel →
    resKeys copy = resKeys copy₀ →
    (stepCopy st repl c (loopGo st repl c fuel copy)).2 = false ∧
    changedIters st repl c fuel copy ≤
      Phi (sortedUnion (resKeys c) (resKeys copy₀)) copy := by
  intro fuel
  induction fuel with
  | zero => intro copy h _; omega
  | succ fuel ih =>
    intro copy hfuel hinv
    have hids : ∀ id ∈ willReplaceIds st repl c copy,
        id ∈ sortedUnion (resKeys c) (resKeys copy₀) := by
      intro id hid
      rcases willReplaceIds_sub st repl c copy id hid with h1 | h2
      · exact mem_sortedUnion.2 (Or.inl h1)
      · rw [hinv] at h2
        exact mem_sortedUnion.2 (Or.inr h2)
    have hstep := stepCopy_props st repl c _ copy hids
    cases hsc : (stepCopy st repl c copy).2 with
    | false =>
      rw [show loopGo st repl c (fuel+1) copy = copy from by simp [loopGo, hsc]]
      rw [show changedIters st repl c (fuel+1) copy = 0 from by simp [changedIters, hsc]]
      exact ⟨hsc, Nat.zero_le _⟩
    | true =>
      have hlt := hstep.2 hsc
      have hinv2 : resKeys (stepCopy st repl c copy).1 = resKeys copy₀ := by
        rw [← hinv]
        exact resKeys_blank (by unfold stepCopy; exact stepFold_blank _ _ _)
      rw [show loopGo st repl c (fuel+1) copy =
        loopGo st repl c fuel (stepCopy st repl c copy).1 from by simp [loopGo, hsc]]
      rw [show changedIters st repl c (fuel+1) copy =
        changedIters st repl c fuel (stepCopy st repl c copy).1 + 1 from by
          simp [changedIters, hsc]]
      have hih := ih (stepCopy st repl c copy).1 (by omega) hinv2
      exact ⟨hih.1, by omega⟩

/-- Claim C3 as amended: for every pair of input templates, with or without
a change set, the do-while propagation loop terminates: the working copy
produced with the fuel diffTemplate supplies is a fixed point of the loop
body, and the number of iterations that change the working copy is bounded
by the measure Phi of the initial copy (the sum, over every string in the
copy, of the number of logical ids at least as long as that string).  The
resource-count bound the claim states, and its justification that a
rewrite can succeed at most once per logical id, are false: see
C3_counterexample, where 2 resources produce 3 changing iterations. -/
theorem C3_loop_terminates (st : Statics) (c n : JSON) (repl : Option Replacements) :
    (stepCopy st repl c (convergedCopy st repl c n)).2 = false ∧
    changedIters st repl c (loopFuel c (deepCopy n)) (deepCopy n) ≤
      Phi (sortedUnion (resKeys c) (resKeys (deepCopy n))) (deepCopy n) :=
  loop_term st repl c (deepCopy n) (loopFuel c (deepCopy n)) (deepCopy n)
    (by unfold loopFuel; omega) rfl

/-- Counterexample to claim C3 as stated: with the two resources A and
A(replaced) of the C3 example, the working copy is changed in 3 loop
iterations, more than the number of resources in either template (2); the
id A(replaced) is rewritten successfully in two different iterations,
refuting the once-per-logical-id justification as well.  The count is
stable under extra fuel. -/
theorem C3_counterexample :
    changedIters stAlways none tmplBold (loopFuel tmplBold (deepCopy tmplBnew))
      (deepCopy tmplBnew) = 3 ∧
    changedIters stAlways none tmplBold (loopFuel tmplBold (deepCopy tmplBnew) + 7)
      (deepCopy tmplBnew) = 3 ∧
    (resKeys tmplBold).length = 2 ∧ (resKeys tmplBnew).length = 2 ∧ ¬ (3 ≤ 2) := by
  refine ⟨by decide, by decide, by decide, by decide, by decide⟩

theorem alget_perm {α : Type} {l₁ l₂ : List (String × α)} (hp : List.Perm l₁ l₂) :
    (keysOf l₁).Nodup → ∀ key, alget l₁ key = alget l₂ key := by
  induction hp with
  | nil => intro _ _; rfl
  | cons a hp ih =>
    intro hn key
    obtain ⟨k, v⟩ := a
    simp only [keysOf, List.map_cons, List.nodup_cons] at hn
    simp only [alget_cons]
    by_cases hk : k = key
    · rw [if_pos hk, if_pos hk]
    · rw [if_neg hk, if_neg hk]
      exact ih hn.2 key
  | swap x y l =>
    intro hn key
    obtain ⟨k1, v1⟩ := x
    obtain ⟨k2, v2⟩ := y
    simp only [keysOf, List.map_cons, List.nodup_cons, List.mem_cons] at hn
    have hne : k2 ≠ k1 := fun h => hn.1 (Or.inl h)
    simp only [alget_cons]
    by_cases h2 : k2 = key
    · have h1 : ¬ (k1 = key) := fun h => hne (h2.trans h.symm)
      rw [if_pos h2, if_neg h1, if_pos h2]
    · rw [if_neg h2]
      by_cases h1 : k1 = key
      · rw [if_pos h1, if_pos h1]
      · rw [if_neg h1, if_neg h1, if_neg h2]
  | trans p₁ p₂ ih₁ ih₂ =>
    intro hn key
    exact (ih₁ hn key).trans (ih₂ ((p₁.map Prod.fst).nodup_iff.mp hn) key)

theorem sortedUnion_congr {a a2 b b2 : List String} (ha : List.Perm a a2)
    (hb : List.Perm b b2) : sortedUnion a b = sortedUnion a2 b2 := by
  unfold sortedUnion sortStrings
  have hd : List.Perm ((a ++ b).dedup) ((a2 ++ b2).dedup) := (ha.append hb).dedup
  exact List.eq_of_perm_of_sorted
    ((List.perm_insertionSort strLe _).trans (hd.trans (List.perm_insertionSort strLe _).symm))
    (List.sorted_insertionSort strLe _) (List.sorted_insertionSort strLe _)

theorem calc_perm (st : Statics) (repl : Option Replacements) (km : Bool)
    {ckvs ckvs2 nkvs nkvs2 : List (String × JSON)}
    (hc : List.Perm ckvs ckvs2) (hcn : (keysOf ckvs).Nodup)
    (hn : List.Perm nkvs nkvs2) (hnn : (keysOf nkvs).Nodup) :
    calculateTemplateDiff st (.obj ckvs) (.obj nkvs) repl km =
      calculateTemplateDiff st (.obj ckvs2) (.obj nkvs2) repl km := by
  have hck := alget_perm hc hcn
  have hnk := alget_perm hn hnn
  have hpk : processedKeys (.obj ckvs) (.obj nkvs) = processedKeys (.obj ckvs2) (.obj nkvs2) :=
    sortedUnion_congr (hc.map Prod.fst) (hn.map Prod.fst)
  show (processedKeys (.obj ckvs) (.obj nkvs)).foldl (fun acc key =>
      if deepEqualOpt (alget ckvs key) (alget nkvs key) then acc
      else applyDiffHandler st repl km acc key (alget ckvs key) (alget nkvs key))
      emptyTemplateDiff =
    (processedKeys (.obj ckvs2) (.obj nkvs2)).foldl (fun acc key =>
      if deepEqualOpt (alget ckvs2 key) (alget nkvs2 key) then acc
      else applyDiffHandler st repl km acc key (alget ckvs2 key) (alget nkvs2 key))
      emptyTemplateDiff
  rw [hpk]
  have hbody : (fun (acc : TemplateDiff) (key : String) =>
      if deepEqualOpt (alget ckvs key) (alget nkvs key) then acc
      else applyDiffHandler st repl km acc key (alget ckvs key) (alget nkvs key)) =
    (fun (acc : TemplateDiff) (key : String) =>
      if deepEqualOpt (alget ckvs2 key) (alget nkvs2 key) then acc
      else applyDiffHandler st repl km acc key (alget ckvs2 key) (alget nkvs2 key)) := by
    funext acc key
    rw [hck key, hnk key]
  rw [hbody]

theorem PhiKVs_perm (S : List String) {kvs kvs2 : List (String × JSON)}
    (hp : List.Perm kvs kvs2) : PhiKVs S kvs = PhiKVs S kvs2 := by
  induction hp with
  | nil => rfl
  | cons a hp ih =>
    obtain ⟨k, v⟩ := a
    show Phi S v + PhiKVs S _ = Phi S v + PhiKVs S _
    rw [ih]
  | swap x y l =>
    obtain ⟨k1, v1⟩ := x
    obtain ⟨k2, v2⟩ := y
    show Phi S v2 + (Phi S v1 + PhiKVs S l) = Phi S v1 + (Phi S v2 + PhiKVs S l)
    omega
  | trans p₁ p₂ ih₁ ih₂ => exact ih₁.trans ih₂

theorem propRecKVs_cons (l k : String) (v : JSON) (kvs : List (String × JSON)) :
    propRecKVs l ((k, v) :: kvs) =
      ((k, (propRec l v).1) :: (propRecKVs l kvs).1,
       (propRec l v).2 || (propRecKVs l kvs).2) := rfl

theorem propRecKVs_perm (l : String) {kvs kvs2 : List (String × JSON)}
    (hp : List.Perm kvs kvs2) :
    List.Perm (propRecKVs l kvs).1 (propRecKVs l kvs2).1 ∧
      (propRecKVs l kvs).2 = (propRecKVs l kvs2).2 := by
  induction hp with
  | nil => exact ⟨List.Perm.refl _, rfl⟩
  | cons a hp ih =>
    obtain ⟨k, v⟩ := a
    simp only [propRecKVs_cons]
    exact ⟨List.Perm.cons _ ih.1, by rw [ih.2]⟩
  | swap x y l2 =>
    obtain ⟨k1, v1⟩ := x
    obtain ⟨k2, v2⟩ := y
    simp only [propRecKVs_cons]
    refine ⟨List.Perm.swap _ _ _, ?_⟩
    cases h1 : (propRec l v1).2 <;> cases h2 : (propRec l v2).2 <;> simp
  | trans p₁ p₂ ih₁ ih₂ => exact ⟨ih₁.1.trans ih₂.1, ih₁.2.trans ih₂.2⟩

theorem propRec_obj_shape (l : String) (kvs : List (String × JSON)) :
    ∃ ws, (propRec l (.obj kvs)).1 = .obj ws ∧ keysOf ws = keysOf kvs := by
  have hb := propRec_blank l (.obj kvs)
  cases hres : (propRec l (.obj kvs)).1 with
  | null => rw [hres] at hb; exact absurd hb (by simp [blankStrings])
  | bool b => rw [hres] at hb; exact absurd hb (by simp [blankStrings])
  | num n => rw [hres] at hb; exact absurd hb (by simp [blankStrings])
  | str s => rw [hres] at hb; exact absurd hb (by simp [blankStrings])
  | arr xs => rw [hres] at hb; exact absurd hb (by simp [blankStrings])
  | obj ws =>
    rw [hres] at hb
    refine ⟨ws, rfl, ?_⟩
    simp only [blankStrings, JSON.obj.injEq] at hb
    exact blankKVs_keys ws kvs hb

theorem propRec_topPerm (l : String) {a b : JSON} (h : TopPerm a b) :
    TopPerm (propRec l a).1 (propRec l b).1 ∧ (propRec l a).2 = (propRec l b).2 := by
  obtain ⟨ws, ws2, rfl, rfl, hp, hn⟩ := h
  rcases ws with _ | ⟨p, _ | ⟨q, rest⟩⟩
  · have h2 : ws2 = [] := List.perm_nil.mp hp.symm
    subst h2
    exact ⟨⟨[], [], rfl, rfl, List.Perm.refl _, List.nodup_nil⟩, rfl⟩
  · have h2 : ws2 = [p] := by
      have h3 := hp.symm
      rwa [List.perm_singleton] at h3
    subst h2
    obtain ⟨ws3, hws3, hkeys⟩ := propRec_obj_shape l [p]
    refine ⟨⟨ws3, ws3, hws3, hws3, List.Perm.refl _, ?_⟩, rfl⟩
    rw [hkeys]
    exact hn
  · have hl := hp.length_eq
    rcases ws2 with _ | ⟨p2, _ | ⟨q2, rest2⟩⟩
    · simp at hl
    · simp at hl
    · have hkv := propRecKVs_perm l hp
      have hkeys : keysOf (propRecKVs l (p :: q :: rest)).1 = keysOf (p :: q :: rest) :=
        blankKVs_keys _ _ (propRecKVs_blank l _)
      refine ⟨⟨(propRecKVs l (p :: q :: rest)).1, (propRecKVs l (p2 :: q2 :: rest2)).1,
        rfl, rfl, hkv.1, ?_⟩, hkv.2⟩
      rw [hkeys]
      exact hn

theorem stepFold_topPerm : ∀ (ids : List String) (a b : JSON), TopPerm a b →
    ∀ (fl : Bool),
    TopPerm (stepFold ids (a, fl)).1 (stepFold ids (b, fl)).1 ∧
      (stepFold ids (a, fl)).2 = (stepFold ids (b, fl)).2
  | [] => fun _ _ h _ => ⟨h, rfl⟩
  | l :: ids => fun a b h fl => by
    have hr := propRec_topPerm l h
    have e1 : stepFold (l :: ids) (a, fl) =
        stepFold ids ((propRec l a).1, fl || (propRec l a).2) := rfl
    have e2 : stepFold (l :: ids) (b, fl) =
        stepFold ids ((propRec l b).1, fl || (propRec l b).2) := rfl
    rw [e1, e2, hr.2]
    exact stepFold_topPerm ids _ _ hr.1 (fl || (propRec l b).2)

theorem willReplaceIds_perm (st : Statics) (repl : Option Replacements)
    {ckvs ckvs2 : List (String × JSON)} (hc : List.Perm ckvs ckvs2)
    (hcn : (keysOf ckvs).Nodup) {a b : JSON} (h : TopPerm a b) :
    willReplaceIds st repl (.obj ckvs) a = willReplaceIds st repl (.obj ckvs2) b := by
  obtain ⟨ws, ws2, rfl, rfl, hp, hn⟩ := h
  unfold willReplaceIds
  rw [calc_perm st repl false hc hcn hp hn]

theorem stepCopy_topPerm (st : Statics) (repl : Option Replacements)
    {ckvs ckvs2 : List (String × JSON)} (hc : List.Perm ckvs ckvs2)
    (hcn : (keysOf ckvs).Nodup) {a b : JSON} (h : TopPerm a b) :
    TopPerm (stepCopy st repl (.obj ckvs) a).1 (stepCopy st repl (.obj ckvs2) b).1 ∧
      (stepCopy st repl (.obj ckvs) a).2 = (stepCopy st repl (.obj ckvs2) b).2 := by
  unfold stepCopy
  rw [willReplaceIds_perm st repl hc hcn h]
  exact stepFold_topPerm _ _ _ h false

theorem loopGo_topPerm (st : Statics) (repl : Option Replacements)
    {ckvs ckvs2 : List (String × JSON)} (hc : List.Perm ckvs ckvs2)
    (hcn : (keysOf ckvs).Nodup) :
    ∀ (fuel : Nat) (a b : JSON), TopPerm a b →
    TopPerm (loopGo st repl (.obj ckvs) fuel a) (loopGo st repl (.obj ckvs2) fuel b)
  | 0 => fun _ _ h => h
  | fuel + 1 => fun a b h => by
    have hs := stepCopy_topPerm st repl hc hcn h
    cases hflag : (stepCopy st repl (.obj ckvs) a).2 with
    | false =>
      have hfB : (stepCopy st repl (.obj ckvs2) b).2 = false := hs.2.symm.trans hflag
      rw [show loopGo st repl (.obj ckvs) (fuel+1) a = a from by simp [loopGo, hflag],
        show loopGo st repl (.obj ckvs2) (fuel+1) b = b from by simp [loopGo, hfB]]
      exact h
    | true =>
      have hfB : (stepCopy st repl (.obj ckvs2) b).2 = true := hs.2.symm.trans hflag
      rw [show loopGo st repl (.obj ckvs) (fuel+1) a =
          loopGo st repl (.obj ckvs) fuel (stepCopy st repl (.obj ckvs) a).1 from by
            simp [loopGo, hflag],
        show loopGo st repl (.obj ckvs2) (fuel+1) b =
          loopGo st repl (.obj ckvs2) fuel (stepCopy st repl (.obj ckvs2) b).1 from by
            simp [loopGo, hfB]]
      exact loopGo_topPerm st repl hc hcn fuel _ _ hs.1

/-- Claim C8: the diff engine is deterministic with reproducible order.  In
this embedding a JS object is an entry list, so two calls with identical
inputs built in different key insertion orders are two calls on top level
permuted entry lists; diffTemplate returns identical diffs for them, and
the top level keys are processed in sorted (lexicographic on the character
lists) order, which is what makes the output order reproducible. -/
theorem C8_deterministic_order (st : Statics) (cs : Option ChangeSetData)
    {ckvs ckvs2 nkvs nkvs2 : List (String × JSON)}
    (hc : List.Perm ckvs ckvs2) (hcn : (keysOf ckvs).Nodup)
    (hn : List.Perm nkvs nkvs2) (hnn : (keysOf nkvs).Nodup) :
    diffTemplate st (.obj ckvs) (.obj nkvs) cs =
      diffTemplate st (.obj ckvs2) (.obj nkvs2) cs ∧
    List.Sorted strLe (processedKeys (.obj ckvs) (.obj nkvs)) := by
  constructor
  · have hck := alget_perm hc hcn
    have hnk := alget_perm hn hnn
    have hres_c : resKeys (.obj ckvs) = resKeys (.obj ckvs2) := by
      unfold resKeys
      show keysOf (objEntriesOpt (alget ckvs "Resources")) =
        keysOf (objEntriesOpt (alget ckvs2 "Resources"))
      rw [hck "Resources"]
    have hres_n : resKeys (.obj nkvs) = resKeys (.obj nkvs2) := by
      unfold resKeys
      show keysOf (objEntriesOpt (alget nkvs "Resources")) =
        keysOf (objEntriesOpt (alget nkvs2 "Resources"))
      rw [hnk "Resources"]
    have hPhi : ∀ S, Phi S (.obj nkvs) = Phi S (.obj nkvs2) := fun S => PhiKVs_perm S hn
    have hfuel : loopFuel (.obj ckvs) (.obj nkvs) = loopFuel (.obj ckvs2) (.obj nkvs2) := by
      unfold loopFuel
      rw [hres_c, hres_n, hPhi]
    have hfix : TopPerm
        (convergedCopy st (cs.map findResourceReplacements) (.obj ckvs) (.obj nkvs))
        (convergedCopy st (cs.map findResourceReplacements) (.obj ckvs2) (.obj nkvs2)) := by
      simp only [convergedCopy, deepCopy_id]
      rw [hfuel]
      exact loopGo_topPerm st _ hc hcn _ _ _ ⟨nkvs, nkvs2, rfl, rfl, hn, hnn⟩
    have htheDiff : calculateTemplateDiff st (.obj ckvs) (.obj nkvs)
        (cs.map findResourceReplacements) (baseKeepMetadata cs) =
      calculateTemplateDiff st (.obj ckvs2) (.obj nkvs2)
        (cs.map findResourceReplacements) (baseKeepMetadata cs) :=
      calc_perm st _ _ hc hcn hn hnn
    obtain ⟨ws, ws2, hw1, hw2, hwp, hwn⟩ := hfix
    have hdown : calculateTemplateDiff st (.obj ckvs)
        (convergedCopy st (cs.map findResourceReplacements) (.obj ckvs) (.obj nkvs))
        (cs.map findResourceReplacements) false =
      calculateTemplateDiff st (.obj ckvs2)
        (convergedCopy st (cs.map findResourceReplacements) (.obj ckvs2) (.obj nkvs2))
        (cs.map findResourceReplacements) false := by
      rw [hw1, hw2]
      exact calc_perm st _ _ hc hcn hwp hwn
    simp only [diffTemplate, diffTemplateKeep]
    rw [htheDiff, hdown]
  · exact List.sorted_insertionSort strLe _

/-- Witness for C8: two concrete template pairs that differ only in the
insertion order of their top level entries yield the same diff, and the
processed key sequence of the first pair is sorted. -/
theorem C8_witness :
    (diffTemplate stAlways (.obj [("Description", .str "d"), ("Resources", .obj [])])
        (.obj [("Outputs", .obj []), ("Resources", .obj [])]) none =
      diffTemplate stAlways (.obj [("Resources", .obj []), ("Description", .str "d")])
        (.obj [("Resources", .obj []), ("Outputs", .obj [])]) none) ∧
    List.Sorted strLe (processedKeys
      (.obj [("Description", .str "d"), ("Resources", .obj [])])
      (.obj [("Outputs", .obj []), ("Resources", .obj [])])) :=
  C8_deterministic_order stAlways none
    (List.Perm.swap ("Resources", JSON.obj []) ("Description", JSON.str "d") [])
    (by decide)
    (List.Perm.swap ("Resources", JSON.obj []) ("Outputs", JSON.obj []) [])
    (by decide)

theorem hget_append_lt {α : Type} : ∀ (l₁ l₂ : List α) (i : Nat), i < l₁.length →
    (l₁ ++ l₂).get? i = l₁.get? i
  | [], _, _, h => by simp at h
  | _ :: _, _, 0, _ => rfl
  | a :: l₁, l₂, i+1, h => by
    show (l₁ ++ l₂).get? i = l₁.get? i
    exact hget_append_lt l₁ l₂ i (by simp only [List.length_cons] at h; omega)

theorem hget_len_le {α : Type} : ∀ (l : List α) (i : Nat), l.length ≤ i → l.get? i = none
  | [], 0, _ => rfl
  | [], _+1, _ => rfl
  | _ :: _, 0, h => by simp at h
  | _ :: l, i+1, h => hget_len_le l i (by simp only [List.length_cons] at h; omega)

theorem hget_append_self {α : Type} : ∀ (l : List α) (a : α),
    (l ++ [a]).get? l.length = some a
  | [], _ => rfl
  | _ :: l, a => hget_append_self l a

theorem hget_set_ne {α : Type} : ∀ (l : List α) (i j : Nat) (a : α), i ≠ j →
    (l.set i a).get? j = l.get? j
  | [], _, _, _, _ => rfl
  | _ :: _, 0, 0, _, h => absurd rfl h
  | _ :: _, 0, _+1, _, _ => rfl
  | _ :: _, _+1, 0, _, _ => rfl
  | _ :: l, i+1, j+1, a, h => hget_set_ne l i j a (fun e => h (by rw [e]))

theorem hget_set_self {α : Type} : ∀ (l : List α) (i : Nat) (a : α),
    (l.set i a).get? i = some a ∨ (l.set i a).get? i = none
  | [], _, _ => Or.inr rfl
  | _ :: _, 0, _ => Or.inl rfl
  | _ :: l, i+1, a => hget_set_self l i a

theorem valBelow_of_B {n : Nat} {v : HVal} (hb : valBelowB n v = true) : valBelow n v := by
  cases v with
  | href a => exact (of_decide_eq_true hb : a < n)
  | hnull => trivial
  | hbool b => trivial
  | hnum m => trivial
  | hstr s => trivial

theorem nodeBelow_of_B {n : Nat} {node : HNode} (hb : nodeBelowB n node = true) :
    nodeBelow n node := by
  cases node with
  | harr xs => intro v hv; exact valBelow_of_B (List.all_eq_true.mp hb v hv)
  | hobj kvs => intro p hp; exact valBelow_of_B (List.all_eq_true.mp hb p hp)

theorem heapClosed_of_B {h : List HNode} (hb : heapClosedB h = true) :
    heapClosed h.length h := fun _ node hget =>
  nodeBelow_of_B (List.all_eq_true.mp hb node (List.get?_mem hget))

theorem heapHigh_init (h : List HNode) : heapHigh h.length h := by
  intro i node hi hget
  rw [hget_len_le h i hi] at hget
  exact Option.noConfusion hget

theorem heapHigh_append {n : Nat} {h : List HNode} {node : HNode}
    (hh : heapHigh n h) (hn : nodeHigh n node) : heapHigh n (h ++ [node]) := by
  intro i nd hi hget
  by_cases hlt : i < h.length
  · rw [hget_append_lt h [node] i hlt] at hget
    exact hh i nd hi hget
  · have hge : h.length ≤ i := Nat.le_of_not_lt hlt
    by_cases heq : i = h.length
    · subst heq
      rw [hget_append_self h node] at hget
      injection hget with h2
      rw [← h2]
      exact hn
    · rw [hget_len_le (h ++ [node]) i (by
        simp only [List.length_append, List.length_cons, List.length_nil]; omega)] at hget
      exact Option.noConfusion hget

theorem heapHigh_set {n : Nat} {h : List HNode} {b : Nat} {nd : HNode}
    (hh : heapHigh n h) (hnd : nodeHigh n nd) : heapHigh n (h.set b nd) := by
  intro i node hi hget
  by_cases hib : b = i
  · subst hib
    rcases hget_set_self h b nd with hs | hs
    · rw [hs] at hget
      injection hget with h2
      rw [← h2]
      exact hnd
    · rw [hs] at hget
      exact Option.noConfusion hget
  · rw [hget_set_ne h b i nd hib] at hget
    exact hh i node hi hget

mutual
theorem decodeV_frame (n : Nat) (h h2 : List HNode)
    (hag : ∀ a, a < n → h2.get? a = h.get? a) (hc : heapClosed n h) :
    ∀ (fuel : Nat) (v : HVal), valBelow n v → decodeV fuel h2 v = decodeV fuel h v
  | _, .hnull => fun _ => by simp [decodeV]
  | _, .hbool b => fun _ => by simp [decodeV]
  | _, .hnum m => fun _ => by simp [decodeV]
  | _, .hstr s => fun _ => by simp [decodeV]
  | 0, .href a => fun _ => by simp [decodeV]
  | fuel+1, .href a => fun hv => by
    have hget : h2.get? a = h.get? a := hag a hv
    rw [show decodeV (fuel+1) h2 (.href a) = (match h2.get? a with
        | some (.harr xs) => (decodeL fuel h2 xs).map JSON.arr
        | some (.hobj kvs) => (decodeKV fuel h2 kvs).map JSON.obj
        | none => none) from by simp [decodeV],
      show decodeV (fuel+1) h (.href a) = (match h.get? a with
        | some (.harr xs) => (decodeL fuel h xs).map JSON.arr
        | some (.hobj kvs) => (decodeKV fuel h kvs).map JSON.obj
        | none => none) from by simp [decodeV],
      hget]
    cases hnode : h.get? a with
    | none => rfl
    | some node =>
      cases node with
      | harr xs =>
        have hkids : ∀ w ∈ xs, valBelow n w := hc a (.harr xs) hnode
        show (decodeL fuel h2 xs).map JSON.arr = (decodeL fuel h xs).map JSON.arr
        rw [decodeL_frame n h h2 hag hc fuel xs hkids]
      | hobj kvs =>
        have hkids : ∀ p ∈ kvs, valBelow n p.2 := hc a (.hobj kvs) hnode
        show (decodeKV fuel h2 kvs).map JSON.obj = (decodeKV fuel h kvs).map JSON.obj
        rw [decodeKV_frame n h h2 hag hc fuel kvs hkids]

theorem decodeL_frame (n : Nat) (h h2 : List HNode)
    (hag : ∀ a, a < n → h2.get? a = h.get? a) (hc : heapClosed n h) :
    ∀ (fuel : Nat) (xs : List HVal), (∀ v ∈ xs, valBelow n v) →
      decodeL fuel h2 xs = decodeL fuel h xs
  | _, [] => fun _ => by simp [decodeL]
  | fuel, x :: xs => fun hk => by
    rw [show decodeL fuel h2 (x :: xs) = (match decodeV fuel h2 x, decodeL fuel h2 xs with
        | some j, some js => some (j :: js)
        | _, _ => none) from by simp [decodeL],
      show decodeL fuel h (x :: xs) = (match decodeV fuel h x, decodeL fuel h xs with
        | some j, some js => some (j :: js)
        | _, _ => none) from by simp [decodeL],
      decodeV_frame n h h2 hag hc fuel x (hk x (List.mem_cons_self x xs)),
      decodeL_frame n h h2 hag hc fuel xs (fun v hv => hk v (List.mem_cons_of_mem x hv))]

theorem decodeKV_frame (n : Nat) (h h2 : List HNode)
    (hag : ∀ a, a < n → h2.get? a = h.get? a) (hc : heapClosed n h) :
    ∀ (fuel : Nat) (kvs : List (String × HVal)), (∀ p ∈ kvs, valBelow n p.2) →
      decodeKV fuel h2 kvs = decodeKV fuel h kvs
  | _, [] => fun _ => by simp [decodeKV]
  | fuel, (k, v) :: kvs => fun hk => by
    rw [show decodeKV fuel h2 ((k, v) :: kvs) =
        (match decodeV fuel h2 v, decodeKV fuel h2 kvs with
        | some j, some js => some ((k, j) :: js)
        | _, _ => none) from by simp [decodeKV],
      show decodeKV fuel h ((k, v) :: kvs) =
        (match decodeV fuel h v, decodeKV fuel h kvs with
        | some j, some js => some ((k, j) :: js)
        | _, _ => none) from by simp [decodeKV],
      decodeV_frame n h h2 hag hc fuel v (hk (k, v) (List.mem_cons_self (k, v) kvs)),
      decodeKV_frame n h h2 hag hc fuel kvs (fun p hp => hk p (List.mem_cons_of_mem (k, v) hp))]
end

mutual
theorem deepCopyHV_spec (n : Nat) : ∀ (fuel : Nat) (h : List HNode) (v : HVal),
    n ≤ h.length → heapHigh n h →
    (∃ ext, (deepCopyHV fuel h v).1 = h ++ ext) ∧
    n ≤ (deepCopyHV fuel h v).1.length ∧
    heapHigh n (deepCopyHV fuel h v).1 ∧
    valHigh n (deepCopyHV fuel h v).2
  | fuel, h, .hnull => fun hlen hh => by
    rw [show deepCopyHV fuel h .hnull = (h, .hnull) from by simp [deepCopyHV]]
    exact ⟨⟨[], by simp⟩, hlen, hh, True.intro⟩
  | fuel, h, .hbool b => fun hlen hh => by
    rw [show deepCopyHV fuel h (.hbool b) = (h, .hbool b) from by simp [deepCopyHV]]
    exact ⟨⟨[], by simp⟩, hlen, hh, True.intro⟩
  | fuel, h, .hnum m => fun hlen hh => by
    rw [show deepCopyHV fuel h (.hnum m) = (h, .hnum m) from by simp [deepCopyHV]]
    exact ⟨⟨[], by simp⟩, hlen, hh, True.intro⟩
  | fuel, h, .hstr s => fun hlen hh => by
    rw [show deepCopyHV fuel h (.hstr s) = (h, .hstr s) from by simp [deepCopyHV]]
    exact ⟨⟨[], by simp⟩, hlen, hh, True.intro⟩
  | 0, h, .href a => fun hlen hh => by
    rw [show deepCopyHV 0 h (.href a) = (h, .hnull) from by simp [deepCopyHV]]
    exact ⟨⟨[], by simp⟩, hlen, hh, True.intro⟩
  | fuel+1, h, .href a => fun hlen hh => by
    cases hnode : h.get? a with
    | none =>
      rw [show deepCopyHV (fuel+1) h (.href a) = (h, .hnull) from by simp only [deepCopyHV, hnode]]
      exact ⟨⟨[], by simp⟩, hlen, hh, True.intro⟩
    | some node =>
      cases node with
      | harr xs =>
        rw [show deepCopyHV (fuel+1) h (.href a) =
          ((deepCopyHL fuel h xs).1 ++ [.harr (deepCopyHL fuel h xs).2],
           .href (deepCopyHL fuel h xs).1.length) from by simp only [deepCopyHV, hnode]]
        obtain ⟨⟨ext, hext⟩, hlen2, hh2, hvals⟩ := deepCopyHL_spec n fuel h xs hlen hh
        refine ⟨⟨ext ++ [.harr (deepCopyHL fuel h xs).2], ?_⟩, ?_, ?_, ?_⟩
        · rw [hext, List.append_assoc]
        · simp only [List.length_append, List.length_cons, List.length_nil]
          omega
        · exact heapHigh_append hh2 hvals
        · exact le_trans hlen2 (by simp)
      | hobj kvs =>
        rw [show deepCopyHV (fuel+1) h (.href a) =
          ((deepCopyHKV fuel h kvs).1 ++ [.hobj (deepCopyHKV fuel h kvs).2],
           .href (deepCopyHKV fuel h kvs).1.length) from by simp only [deepCopyHV, hnode]]
        obtain ⟨⟨ext, hext⟩, hlen2, hh2, hvals⟩ := deepCopyHKV_spec n fuel h kvs hlen hh
        refine ⟨⟨ext ++ [.hobj (deepCopyHKV fuel h kvs).2], ?_⟩, ?_, ?_, ?_⟩
        · rw [hext, List.append_assoc]
        · simp only [List.length_append, List.length_cons, List.length_nil]
          omega
        · exact heapHigh_append hh2 hvals
        · exact le_trans hlen2 (by simp)

theorem deepCopyHL_spec (n : Nat) : ∀ (fuel : Nat) (h : List HNode) (xs : List HVal),
    n ≤ h.length → heapHigh n h →
    (∃ ext, (deepCopyHL fuel h xs).1 = h ++ ext) ∧
    n ≤ (deepCopyHL fuel h xs).1.length ∧
    heapHigh n (deepCopyHL fuel h xs).1 ∧
    (∀ v ∈ (deepCopyHL fuel h xs).2, valHigh n v)
  | fuel, h, [] => fun hlen hh => by
    rw [show deepCopyHL fuel h [] = (h, []) from by simp [deepCopyHL]]
    exact ⟨⟨[], by simp⟩, hlen, hh, by intro v hv; simp at hv⟩
  | fuel, h, x :: xs => fun hlen hh => by
    obtain ⟨⟨ext1, hext1⟩, hlen1, hh1, hv1⟩ := deepCopyHV_spec n fuel h x hlen hh
    obtain ⟨⟨ext2, hext2⟩, hlen2, hh2, hv2⟩ :=
      deepCopyHL_spec n fuel (deepCopyHV fuel h x).1 xs hlen1 hh1
    rw [show deepCopyHL fuel h (x :: xs) =
      ((deepCopyHL fuel (deepCopyHV fuel h x).1 xs).1,
       (deepCopyHV fuel h x).2 :: (deepCopyHL fuel (deepCopyHV fuel h x).1 xs).2) from by
        simp [deepCopyHL]]
    refine ⟨⟨ext1 ++ ext2, ?_⟩, hlen2, hh2, ?_⟩
    · rw [hext2, hext1, List.append_assoc]
    · intro v hv
      rcases List.mem_cons.mp hv with h1 | h2
      · rw [h1]; exact hv1
      · exact hv2 v h2

theorem deepCopyHKV_spec (n : Nat) : ∀ (fuel : Nat) (h : List HNode)
    (kvs : List (String × HVal)),
    n ≤ h.length → heapHigh n h →
    (∃ ext, (deepCopyHKV fuel h kvs).1 = h ++ ext) ∧
    n ≤ (deepCopyHKV fuel h kvs).1.length ∧
    heapHigh n (deepCopyHKV fuel h kvs).1 ∧
    (∀ p ∈ (deepCopyHKV fuel h kvs).2, valHigh n p.2)
  | fuel, h, [] => fun hlen hh => by
    rw [show deepCopyHKV fuel h [] = (h, []) from by simp [deepCopyHKV]]
    exact ⟨⟨[], by simp⟩, hlen, hh, by intro p hp; simp at hp⟩
  | fuel, h, (k, v) :: kvs => fun hlen hh => by
    obtain ⟨⟨ext1, hext1⟩, hlen1, hh1, hv1⟩ := deepCopyHV_spec n fuel h v hlen hh
    obtain ⟨⟨ext2, hext2⟩, hlen2, hh2, hv2⟩ :=
      deepCopyHKV_spec n fuel (deepCopyHV fuel h v).1 kvs hlen1 hh1
    rw [show deepCopyHKV fuel h ((k, v) :: kvs) =
      ((deepCopyHKV fuel (deepCopyHV fuel h v).1 kvs).1,
       (k, (deepCopyHV fuel h v).2) :: (deepCopyHKV fuel (deepCopyHV fuel h v).1 kvs).2) from by
        simp [deepCopyHKV]]
    refine ⟨⟨ext1 ++ ext2, ?_⟩, hlen2, hh2, ?_⟩
    · rw [hext2, hext1, List.append_assoc]
    · intro p hp
      rcases List.mem_cons.mp hp with h1 | h2
      · rw [h1]; exact hv1
      · exact hv2 p h2
end

mutual
theorem propHV_frame (n : Nat) : ∀ (fuel : Nat) (lg : String) (h : List HNode) (v : HVal),
    heapHigh n h → valHigh n v →
    (∀ a, a < n → (propHV fuel lg h v).1.get? a = h.get? a) ∧
    heapHigh n (propHV fuel lg h v).1
  | fuel, lg, h, .hnull => fun hh _ => by
    rw [show propHV fuel lg h .hnull = (h, false) from by simp [propHV]]
    exact ⟨fun _ _ => rfl, hh⟩
  | fuel, lg, h, .hbool b => fun hh _ => by
    rw [show propHV fuel lg h (.hbool b) = (h, false) from by simp [propHV]]
    exact ⟨fun _ _ => rfl, hh⟩
  | fuel, lg, h, .hnum m => fun hh _ => by
    rw [show propHV fuel lg h (.hnum m) = (h, false) from by simp [propHV]]
    exact ⟨fun _ _ => rfl, hh⟩
  | fuel, lg, h, .hstr s => fun hh _ => by
    rw [show propHV fuel lg h (.hstr s) = (h, false) from by simp [propHV]]
    exact ⟨fun _ _ => rfl, hh⟩
  | 0, lg, h, .href a => fun hh _ => by
    rw [show propHV 0 lg h (.href a) = (h, false) from by simp [propHV]]
    exact ⟨fun _ _ => rfl, hh⟩
  | fuel+1, lg, h, .href a => fun hh hv => by
    have hvn : n ≤ a := hv
    cases hnode : h.get? a with
    | none =>
      rw [show propHV (fuel+1) lg h (.href a) = (h, false) from by simp only [propHV, hnode]]
      exact ⟨fun _ _ => rfl, hh⟩
    | some node =>
      cases node with
      | harr xs =>
        rw [show propHV (fuel+1) lg h (.href a) = propHL fuel lg h xs from by
          simp only [propHV, hnode]]
        exact propHL_frame n fuel lg h xs hh (hh a _ hvn hnode)
      | hobj kvs =>
        have hkids : ∀ p ∈ kvs, valHigh n p.2 := hh a _ hvn hnode
        rcases kvs with _ | ⟨⟨k, w⟩, _ | ⟨p2, rest⟩⟩
        · rw [show propHV (fuel+1) lg h (.href a) = propHKV fuel lg h [] from by
            simp only [propHV, hnode]]
          exact propHKV_frame n fuel lg h [] hh hkids
        · by_cases hk : k = "Ref"
          · subst hk
            cases w with
            | hstr s =>
              by_cases hs : s = lg
              · rw [show propHV (fuel+1) lg h (.href a) =
                  (h.set a (.hobj [("Ref", .hstr (lg ++ " (replaced)"))]), true) from by
                    simp only [propHV, hnode]; simp [hs]]
                constructor
                · intro j hj
                  exact hget_set_ne h a j _ (by omega)
                · apply heapHigh_set hh
                  intro p hp
                  rw [List.mem_singleton] at hp
                  rw [hp]
                  exact True.intro
              · rw [show propHV (fuel+1) lg h (.href a) = (h, false) from by
                  simp only [propHV, hnode]; simp [hs]]
                exact ⟨fun _ _ => rfl, hh⟩
            | hnull =>
              rw [show propHV (fuel+1) lg h (.href a) = (h, false) from by
                simp only [propHV, hnode] <;> simp]
              exact ⟨fun _ _ => rfl, hh⟩
            | hbool b =>
              rw [show propHV (fuel+1) lg h (.href a) = (h, false) from by
                simp only [propHV, hnode] <;> simp]
              exact ⟨fun _ _ => rfl, hh⟩
            | hnum m =>
              rw [show propHV (fuel+1) lg h (.href a) = (h, false) from by
                simp only [propHV, hnode] <;> simp]
              exact ⟨fun _ _ => rfl, hh⟩
            | href b =>
              rw [show propHV (fuel+1) lg h (.href a) = (h, false) from by
                simp only [propHV, hnode] <;> simp]
              exact ⟨fun _ _ => rfl, hh⟩
          · by_cases hf : startsWithB k "Fn::" = true
            · cases w with
              | href b =>
                have hvb : n ≤ b := hkids (k, .href b) (by simp)
                cases hnodeb : h.get? b with
                | none =>
                  rw [show propHV (fuel+1) lg h (.href a) = (h, false) from by
                    simp only [propHV, hnode, hnodeb]; simp [hk, hf]]
                  exact ⟨fun _ _ => rfl, hh⟩
                | some nodeb =>
                  cases nodeb with
                  | hobj kvs2 =>
                    rw [show propHV (fuel+1) lg h (.href a) = (h, false) from by
                      simp only [propHV, hnode, hnodeb]; simp [hk, hf]]
                    exact ⟨fun _ _ => rfl, hh⟩
                  | harr ys =>
                    cases ys with
                    | nil =>
                      rw [show propHV (fuel+1) lg h (.href a) = (h, false) from by
                        simp only [propHV, hnode, hnodeb]; simp [hk, hf]]
                      exact ⟨fun _ _ => rfl, hh⟩
                    | cons x rest =>
                      cases x with
                      | hstr s =>
                        by_cases hs : s = lg
                        · rw [show propHV (fuel+1) lg h (.href a) =
                            (h.set b (.harr (.hstr (lg ++ "(replaced)") :: rest)), true)
                            from by simp only [propHV, hnode, hnodeb]; simp [hk, hf, hs]]
                          constructor
                          · intro j hj
                            exact hget_set_ne h b j _ (by omega)
                          · apply heapHigh_set hh
                            have hrest := hh b _ hvb hnodeb
                            intro q hq
                            rcases List.mem_cons.mp hq with h1 | h2
                            · rw [h1]; exact True.intro
                            · exact hrest q (List.mem_cons_of_mem _ h2)
                        · rw [show propHV (fuel+1) lg h (.href a) = (h, false) from by
                            simp only [propHV, hnode, hnodeb]; simp [hk, hf, hs]]
                          exact ⟨fun _ _ => rfl, hh⟩
                      | hnull =>
                        rw [show propHV (fuel+1) lg h (.href a) = (h, false) from by
                          simp only [propHV, hnode, hnodeb]; simp [hk, hf]]
                        exact ⟨fun _ _ => rfl, hh⟩
                      | hbool b2 =>
                        rw [show propHV (fuel+1) lg h (.href a) = (h, false) from by
                          simp only [propHV, hnode, hnodeb]; simp [hk, hf]]
                        exact ⟨fun _ _ => rfl, hh⟩
                      | hnum m =>
                        rw [show propHV (fuel+1) lg h (.href a) = (h, false) from by
                          simp only [propHV, hnode, hnodeb]; simp [hk, hf]]
                        exact ⟨fun _ _ => rfl, hh⟩
                      | href c =>
                        rw [show propHV (fuel+1) lg h (.href a) = (h, false) from by
                          simp only [propHV, hnode, hnodeb]; simp [hk, hf]]
                        exact ⟨fun _ _ => rfl, hh⟩
              | hnull =>
                rw [show propHV (fuel+1) lg h (.href a) = (h, false) from by
                  simp only [propHV, hnode]; simp [hk, hf]]
                exact ⟨fun _ _ => rfl, hh⟩
              | hbool b =>
                rw [show propHV (fuel+1) lg h (.href a) = (h, false) from by
                  simp only [propHV, hnode]; simp [hk, hf]]
                exact ⟨fun _ _ => rfl, hh⟩
              | hnum m =>
                rw [show propHV (fuel+1) lg h (.href a) = (h, false) from by
                  simp only [propHV, hnode]; simp [hk, hf]]
                exact ⟨fun _ _ => rfl, hh⟩
              | hstr s =>
                rw [show propHV (fuel+1) lg h (.href a) = (h, false) from by
                  simp only [propHV, hnode]; simp [hk, hf]]
                exact ⟨fun _ _ => rfl, hh⟩
            · rw [show propHV (fuel+1) lg h (.href a) = propHV fuel lg h w from by
                simp only [propHV, hnode]; simp [hk, hf]]
              exact propHV_frame n fuel lg h w hh (hkids (k, w) (by simp))
        · rw [show propHV (fuel+1) lg h (.href a) =
            propHKV fuel lg h ((k, w) :: p2 :: rest) from by simp only [propHV, hnode]]
          exact propHKV_frame n fuel lg h ((k, w) :: p2 :: rest) hh hkids

theorem propHL_frame (n : Nat) : ∀ (fuel : Nat) (lg : String) (h : List HNode)
    (xs : List HVal), heapHigh n h → (∀ v ∈ xs, valHigh n v) →
    (∀ a, a < n → (propHL fuel lg h xs).1.get? a = h.get? a) ∧
    heapHigh n (propHL fuel lg h xs).1
  | fuel, lg, h, [] => fun hh _ => by
    rw [show propHL fuel lg h [] = (h, false) from by simp [propHL]]
    exact ⟨fun _ _ => rfl, hh⟩
  | fuel, lg, h, x :: xs => fun hh hk => by
    obtain ⟨hag1, hh1⟩ := propHV_frame n fuel lg h x hh (hk x (List.mem_cons_self x xs))
    obtain ⟨hag2, hh2⟩ := propHL_frame n fuel lg (propHV fuel lg h x).1 xs hh1
      (fun v hv => hk v (List.mem_cons_of_mem x hv))
    rw [show propHL fuel lg h (x :: xs) =
      ((propHL fuel lg (propHV fuel lg h x).1 xs).1,
       (propHV fuel lg h x).2 || (propHL fuel lg (propHV fuel lg h x).1 xs).2) from by
        simp [propHL]]
    exact ⟨fun a ha => (hag2 a ha).trans (hag1 a ha), hh2⟩

theorem propHKV_frame (n : Nat) : ∀ (fuel : Nat) (lg : String) (h : List HNode)
    (kvs : List (String × HVal)), heapHigh n h → (∀ p ∈ kvs, valHigh n p.2) →
    (∀ a, a < n → (propHKV fuel lg h kvs).1.get? a = h.get? a) ∧
    heapHigh n (propHKV fuel lg h kvs).1
  | fuel, lg, h, [] => fun hh _ => by
    rw [show propHKV fuel lg h [] = (h, false) from by simp [propHKV]]
    exact ⟨fun _ _ => rfl, hh⟩
  | fuel, lg, h, (k, v) :: kvs => fun hh hk => by
    obtain ⟨hag1, hh1⟩ := propHV_frame n fuel lg h v hh (hk (k, v) (List.mem_cons_self _ kvs))
    obtain ⟨hag2, hh2⟩ := propHKV_frame n fuel lg (propHV fuel lg h v).1 kvs hh1
      (fun p hp => hk p (List.mem_cons_of_mem (k, v) hp))
    rw [show propHKV fuel lg h ((k, v) :: kvs) =
      ((propHKV fuel lg (propHV fuel lg h v).1 kvs).1,
       (propHV fuel lg h v).2 || (propHKV fuel lg (propHV fuel lg h v).1 kvs).2) from by
        simp [propHKV]]
    exact ⟨fun a ha => (hag2 a ha).trans (hag1 a ha), hh2⟩
end

theorem propagateMany_frame (n fuel : Nat) (root : HVal) (hroot : valHigh n root) :
    ∀ (ids : List String) (h : List HNode), heapHigh n h →
    (∀ a, a < n → (propagateMany fuel ids h root).get? a = h.get? a) ∧
    heapHigh n (propagateMany fuel ids h root)
  | [], h => fun hh => ⟨fun _ _ => rfl, hh⟩
  | l :: ids, h => fun hh => by
    obtain ⟨hag1, hh1⟩ := propHV_frame n fuel l h root hh hroot
    obtain ⟨hag2, hh2⟩ :=
      propagateMany_frame n fuel root hroot ids (propHV fuel l h root).1 hh1
    have e : propagateMany fuel (l :: ids) h root =
        propagateMany fuel ids (propHV fuel l h root).1 root := rfl
    rw [e]
    exact ⟨fun a ha => (hag2 a ha).trans (hag1 a ha), hh2⟩

theorem heapMutations_frame (n fuel : Nat) (root : HVal) (hroot : valHigh n root) :
    ∀ (idss : List (List String)) (h : List HNode), heapHigh n h →
    (∀ a, a < n → (heapMutations fuel idss h root).get? a = h.get? a) ∧
    heapHigh n (heapMutations fuel idss h root)
  | [], h => fun hh => ⟨fun _ _ => rfl, hh⟩
  | ids :: idss, h => fun hh => by
    obtain ⟨hag1, hh1⟩ := propagateMany_frame n fuel root hroot ids h hh
    obtain ⟨hag2, hh2⟩ :=
      heapMutations_frame n fuel root hroot idss (propagateMany fuel ids h root) hh1
    have e : heapMutations fuel (ids :: idss) h root =
        heapMutations fuel idss (propagateMany fuel ids h root) root := rfl
    rw [e]
    exact ⟨fun a ha => (hag2 a ha).trans (hag1 a ha), hh2⟩

/-- Claim C7: diffTemplate never mutates its caller-owned inputs.  At the
heap level: starting from any self-contained heap, deep-copy the new
template and run any sequence of propagation iterations, each rewriting
in place through the copy root only; afterwards every value that was
closed in the original heap, in particular the current template root and
the new template root, still reads back exactly as before.  The copy is
allocated entirely in fresh addresses and all writes stay inside the copy
region, above the original heap. -/
theorem C7_no_input_mutation (fuel : Nat) (idss : List (List String)) (h : List HNode)
    (curRoot newRoot : HVal) (hclosed : heapClosedB h = true)
    (hcur : valBelowB h.length curRoot = true) (hnew : valBelowB h.length newRoot = true)
    (dfuel : Nat) :
    decodeV dfuel (diffTemplateHeap fuel idss h newRoot).1 curRoot =
      decodeV dfuel h curRoot ∧
    decodeV dfuel (diffTemplateHeap fuel idss h newRoot).1 newRoot =
      decodeV dfuel h newRoot := by
  have hc : heapClosed h.length h := heapClosed_of_B hclosed
  obtain ⟨⟨ext, hext⟩, hlen1, hh1, hvroot⟩ :=
    deepCopyHV_spec h.length fuel h newRoot (le_refl _) (heapHigh_init h)
  obtain ⟨hag2, hh2⟩ := heapMutations_frame h.length fuel (deepCopyHV fuel h newRoot).2
    hvroot idss (deepCopyHV fuel h newRoot).1 hh1
  have hagree : ∀ a, a < h.length →
      (diffTemplateHeap fuel idss h newRoot).1.get? a = h.get? a := by
    intro a ha
    have e : (diffTemplateHeap fuel idss h newRoot).1 =
        heapMutations fuel idss (deepCopyHV fuel h newRoot).1
          (deepCopyHV fuel h newRoot).2 := rfl
    rw [e, hag2 a ha, hext, hget_append_lt h ext a ha]
  exact ⟨decodeV_frame h.length h _ hagree hc dfuel curRoot (valBelow_of_B hcur),
    decodeV_frame h.length h _ hagree hc dfuel newRoot (valBelow_of_B hnew)⟩

/-- Witness for C7: a one-node heap holding a Ref to the logical id A; the
propagation pass on the copy rewrites the copied node, yet decoding the
original root afterwards returns the untouched document. -/
theorem C7_witness :
    (decodeV 3 (diffTemplateHeap 5 [["A"]] [HNode.hobj [("Ref", HVal.hstr "A")]]
        (HVal.href 0)).1 (HVal.href 0) =
      decodeV 3 [HNode.hobj [("Ref", HVal.hstr "A")]] (HVal.href 0)) ∧
    (decodeV 3 (diffTemplateHeap 5 [["A"]] [HNode.hobj [("Ref", HVal.hstr "A")]]
        (HVal.href 0)).1 (HVal.href 0) =
      decodeV 3 [HNode.hobj [("Ref", HVal.hstr "A")]] (HVal.href 0)) :=
  C7_no_input_mutation 5 [["A"]] [HNode.hobj [("Ref", HVal.hstr "A")]] (HVal.href 0)
    (HVal.href 0) (by decide) (by decide) (by decide) 3

end CdkDiff
